import Mathlib

/-!
# A fixed-region first-fit allocator (`src/src/allocator.cpp`)

Shallow embedding of `Allocator` and of its two operations `Allocate` and
`Deallocate`.

* Addresses are natural numbers, the null pointer is `0`.
* The managed memory is seen through the control blocks (`MCB`) stored in it:
  `mem a` is the record whose first byte is at address `a`.  Every address the
  allocator ever uses as a control block is `addr + 32 * k`, so two different
  addresses never denote overlapping records.
* `size_t` / `uintptr_t` arithmetic wraps modulo `2 ^ 64`.  Pointer arithmetic
  on `MCB *` (`current + 1`, `ptr - 1`) is only defined by C++ inside the
  object it points into and is modelled without wrap-around.
* The `while` loop of `Allocate` walks a linked list that lives in memory, so
  it is given a fuel: `none` means that the loop did not finish within the
  given number of iterations.
-/

namespace Allocator

/-- Size of a control block, `sizeof(MCB)`: two pointers, one `size_t` and
eight reserved bytes. -/
def sizeofMCB : Nat := 32

/-- Number of values of `size_t` and of `uintptr_t`. -/
def wordMod : Nat := 2 ^ 64

/-- Memory Control Block, `struct Allocator::MCB` (the reserved bytes carry no
information). -/
structure MCB where
  prev : Nat
  next : Nat
  size : Nat
deriving DecidableEq, Repr

/-- The memory as the allocator sees it: the control block at each address. -/
abbrev Mem := Nat → MCB

/-- Store `p->prev = v`. -/
def setPrev (m : Mem) (p v : Nat) : Mem :=
  fun a => if a = p then { m p with prev := v } else m a

/-- Store `p->next = v`. -/
def setNext (m : Mem) (p v : Nat) : Mem :=
  fun a => if a = p then { m p with next := v } else m a

/-- Store `p->size = v`. -/
def setSize (m : Mem) (p v : Nat) : Mem :=
  fun a => if a = p then { m p with size := v } else m a

end Allocator

/-- The fields of `class Allocator`, together with the memory they point
into. -/
structure Allocator where
  addr : Nat
  size : Nat
  freeList : Nat
  usedList : Nat
  mem : Allocator.Mem

namespace Allocator

/-- Subtraction on `size_t`, modulo `2 ^ 64`. -/
def sub64 (a b : Nat) : Nat := (a + wordMod - b % wordMod) % wordMod

/-- Constructor `Allocator::Allocator(addr, size)`: the whole region becomes
one free block, the used list is empty.  `m` is the content of the memory
before the call. -/
def construct (m : Mem) (addr size : Nat) : Allocator :=
  let freeList := addr
  let m1 := setPrev m freeList 0
  let m2 := setNext m1 freeList 0
  let m3 := setSize m2 freeList (sub64 size sizeofMCB)
  { addr := addr, size := size, freeList := freeList, usedList := 0, mem := m3 }

/-- Memory in which every control block is zero. -/
def zeroMem : Mem := fun _ => { prev := 0, next := 0, size := 0 }

/-- The constant `size_offset = sizeof(MCB) - 1` of `Allocate`. -/
def size_offset : Nat := sizeofMCB - 1

/-- The constant `size_mask = ~size_offset` of `Allocate`, on 64 bits. -/
def size_mask : Nat := wordMod - 1 - size_offset

/-- The size really allocated, `alloc_size = (size + size_offset) & size_mask`. -/
def alloc_size (size : Nat) : Nat := ((size + size_offset) % wordMod) &&& size_mask

/-- The search part of the loop of `Allocate`: starting at `current`, skip
the blocks whose size is below `asz`.  `some 0` when the end of the list is
reached, `some c` at the first block that is large enough, `none` when the
fuel is used up before either happens. -/
def findFit (m : Mem) (asz : Nat) : Nat → Nat → Option Nat
  | 0, current => if current = 0 then some 0 else none
  | fuel + 1, current =>
    if current = 0 then some 0
    else if (m current).size < asz then findFit m asz fuel (m current).next
    else some current

/-- The condition under which `Allocate` splits the block `current`: it is
large enough, and the new control block starts inside the region. -/
def splitCond (s : Allocator) (asz current : Nat) : Bool :=
  decide ((asz + sizeofMCB * 2) % wordMod ≤ (s.mem current).size) &&
  decide ((current + sizeofMCB + asz) % wordMod < (s.addr + s.size) % wordMod)

/-- The split of `current` (lines 60 to 74). -/
def splitBlock (m : Mem) (asz current : Nat) : Mem :=
  let next := (current + sizeofMCB + asz) % wordMod
  let newMcb := next
  let m1 := setNext m newMcb (m current).next
  let m2 := setPrev m1 newMcb current
  let m3 := setNext m2 current newMcb
  let m4 := setSize m3 newMcb (sub64 (sub64 (m3 current).size asz) sizeofMCB)
  setSize m4 current asz

/-- The body of the loop of `Allocate` once a large enough block `current` has
been found (lines 57 to 95): split, unlink from the free list, push on the
used list. -/
def takeBlock (s : Allocator) (asz current : Nat) : Nat × Allocator :=
  let m0 := if splitCond s asz current then splitBlock s.mem asz current else s.mem
  let m1 := if (m0 current).prev ≠ 0 then setNext m0 (m0 current).prev (m0 current).next else m0
  let m2 := if (m1 current).next ≠ 0 then setPrev m1 (m1 current).next (m1 current).prev else m1
  let freeList := if current = s.freeList then (m2 current).next else s.freeList
  let m3 := if s.usedList ≠ 0 then setPrev m2 s.usedList current else m2
  let m4 := setNext m3 current s.usedList
  (current + sizeofMCB,
    { s with mem := m4, freeList := freeList, usedList := current })

/-- The method `Allocator::Allocate(size)`: the returned pointer (`0` for `nullptr`) and
the new state; `none` when the search does not finish within `fuel`
iterations. -/
def Allocate (fuel : Nat) (s : Allocator) (size : Nat) : Option (Nat × Allocator) :=
  match findFit s.mem (alloc_size size) fuel s.freeList with
  | none => none
  | some current =>
    if current = 0 then some (0, s) else some (takeBlock s (alloc_size size) current)

/-- The method `Allocator::Deallocate(ptr)`: the block in front of `ptr` is
unlinked from the used list and pushed on the free list; nothing happens for
`nullptr`. -/
def Deallocate (s : Allocator) (ptr : Nat) : Allocator :=
  if ptr = 0 then s
  else
    let mcb := ptr - sizeofMCB
    let m0 := s.mem
    let m1 := if (m0 mcb).next ≠ 0 then setPrev m0 (m0 mcb).next (m0 mcb).prev else m0
    let m2 := if (m1 mcb).prev ≠ 0 then setNext m1 (m1 mcb).prev (m1 mcb).next else m1
    let usedList := if mcb = s.usedList then (m2 mcb).next else s.usedList
    let m3 := if s.freeList ≠ 0 then setPrev m2 s.freeList mcb else m2
    let m4 := setNext m3 mcb s.freeList
    { s with mem := m4, freeList := mcb, usedList := usedList }

/-- Destructor check `assert(usedList == nullptr)`. -/
def destructorOk (s : Allocator) : Bool := decide (s.usedList = 0)

/-! ## Sequences of calls -/

/-- A call of one of the two public operations. -/
inductive Call where
  | allocate (size : Nat)
  | deallocate (ptr : Nat)
deriving DecidableEq, Repr

/-- An allocator together with the bookkeeping of its caller: `live` holds the
pointers returned by `Allocate` and not deallocated since (most recent first),
`returned` holds every result of `Allocate` (most recent first). -/
structure Session where
  state : Allocator
  live : List Nat
  returned : List Nat

/-- The session right after construction over the region `[addr, addr + size)`. -/
def Session.start (addr size : Nat) : Session :=
  { state := construct zeroMem addr size, live := [], returned := [] }

/-- One call.  `none` when the call is not allowed (`Deallocate` of a pointer
that is neither null nor live) or when `Allocate` does not finish within
`fuel` iterations. -/
def Session.step (fuel : Nat) (t : Session) : Call → Option Session
  | .allocate n =>
    match Allocate fuel t.state n with
    | none => none
    | some (p, s) =>
      some { state := s, live := if p = 0 then t.live else p :: t.live,
             returned := p :: t.returned }
  | .deallocate p =>
    if p = 0 ∨ p ∈ t.live then
      some { t with state := Deallocate t.state p, live := t.live.erase p }
    else none

/-- A sequence of calls, from left to right. -/
def Session.run (fuel : Nat) : Session → List Call → Option Session
  | t, [] => some t
  | t, c :: cs =>
    match t.step fuel c with
    | none => none
    | some t1 => Session.run fuel t1 cs

/-- The blocks met from `head` by following `next`, at most `fuel` of them. -/
def walk (m : Mem) : Nat → Nat → List Nat
  | 0, _ => []
  | fuel + 1, head => if head = 0 then [] else head :: walk m fuel (m head).next

/-- The list `l` is exactly the chain of blocks from `head` to null. -/
def IsChain (m : Mem) : Nat → List Nat → Prop
  | head, [] => head = 0
  | head, a :: l => head = a ∧ a ≠ 0 ∧ IsChain m (m a).next l

instance IsChain.instDecidable (m : Mem) :
    ∀ (head : Nat) (l : List Nat), Decidable (IsChain m head l)
  | head, [] => inferInstanceAs (Decidable (head = 0))
  | head, a :: l =>
    have := IsChain.instDecidable m (m a).next l
    inferInstanceAs (Decidable (head = a ∧ a ≠ 0 ∧ IsChain m (m a).next l))

/-- The list `l` is the chain of blocks from `head` to null and the `prev`
links mirror it: the `prev` of the first block is `prev`, the `prev` of every
other block is the block before it. -/
def IsDChain (m : Mem) : Nat → Nat → List Nat → Prop
  | _, head, [] => head = 0
  | prev, head, a :: l => head = a ∧ a ≠ 0 ∧ (m a).prev = prev ∧ IsDChain m a (m a).next l

/-- Whether the call `Allocate(size)` runs the split (lines 63 to 74): the
search finds a block and `splitCond` holds for it. -/
def splits (fuel : Nat) (s : Allocator) (size : Nat) : Bool :=
  match findFit s.mem (alloc_size size) fuel s.freeList with
  | none => false
  | some current => decide (current ≠ 0) && splitCond s (alloc_size size) current

/-- The second scenario of `main.cpp` for a region `(addr, size)`, a maximum
size `max` and three sizes: `p = Allocate(max)`, `Deallocate(p)`, three
allocations, their deallocations in the same order, `d = Allocate(max)`.  The
result tells whether one of the three allocations split a block, and `d`. -/
def scenario2 (fuel : Nat) (m0 : Mem) (addr size max n1 n2 n3 : Nat) : Option (Bool × Nat) :=
  match Allocate fuel (construct m0 addr size) max with
  | none => none
  | some (p, s1) =>
    let s2 := Deallocate s1 p
    match Allocate fuel s2 n1 with
    | none => none
    | some (a, s3) =>
      match Allocate fuel s3 n2 with
      | none => none
      | some (b, s4) =>
        match Allocate fuel s4 n3 with
        | none => none
        | some (c, s5) =>
          let s8 := Deallocate (Deallocate (Deallocate s5 a) b) c
          match Allocate fuel s8 max with
          | none => none
          | some (d, _) =>
            some (splits fuel s2 n1 || splits fuel s3 n2 || splits fuel s4 n3, d)

/-- A state with three free blocks: the one left by the first scenario of
`main.cpp` on the region of 1024 bytes at 4096. -/
def sampleState : Allocator :=
  { addr := 4096, size := 1024, freeList := 4864, usedList := 0,
    mem := fun a =>
      if a = 4864 then ⟨0, 4608, 224⟩
      else if a = 4608 then ⟨4864, 4096, 224⟩
      else if a = 4096 then ⟨4608, 0, 480⟩
      else ⟨0, 0, 0⟩ }

/-- Every block of `ul`, and the head of the free list if there is one, has
at least 64 bytes less than the region size `S`. -/
def Small (S : Nat) (s : Allocator) (ul : List Nat) : Prop :=
  (∀ u ∈ ul, (s.mem u).size + 64 ≤ S) ∧
  (s.freeList ≠ 0 → (s.mem s.freeList).size + 64 ≤ S)

/-- The states met while blocks are only carved off the end of the region
`(base, S)`: the used list is the well-formed doubly linked chain `ul`, and
the free list is empty or one block that lies above every used block and
inside the region. -/
structure Carving (base S : Nat) (s : Allocator) (ul : List Nat) : Prop where
  addr_eq : s.addr = base
  size_eq : s.size = S
  used : IsDChain s.mem 0 s.usedList ul
  nodup : ul.Nodup
  free : s.freeList = 0 ∨
    (base ≤ s.freeList ∧ (s.mem s.freeList).next = 0 ∧ (s.mem s.freeList).prev = 0 ∧
      s.freeList + 32 + (s.mem s.freeList).size ≤ base + S ∧ ∀ u ∈ ul, u < s.freeList)
  small : ul = [] ∨ s.freeList = 0 ∨ Small S s ul

/-- The states in which the free list is the chain `fl`, the used list is the
well-formed doubly linked chain `ul`, and no block is on both. -/
structure Freed (s : Allocator) (fl ul : List Nat) : Prop where
  free : IsChain s.mem s.freeList fl
  used : IsDChain s.mem 0 s.usedList ul
  nodup : (fl ++ ul).Nodup

/-- One call when `Deallocate` is allowed on null and on every pointer that
`Allocate` has returned before, deallocated since or not. -/
def Session.stepAny (fuel : Nat) (t : Session) : Call → Option Session
  | .allocate n =>
    match Allocate fuel t.state n with
    | none => none
    | some (p, s) =>
      some { state := s, live := if p = 0 then t.live else p :: t.live,
             returned := p :: t.returned }
  | .deallocate p =>
    if p = 0 ∨ p ∈ t.returned then
      some { t with state := Deallocate t.state p, live := t.live.erase p }
    else none

/-- A sequence of calls in the sense of `Session.stepAny`. -/
def Session.runAny (fuel : Nat) : Session → List Call → Option Session
  | t, [] => some t
  | t, c :: cs =>
    match t.stepAny fuel c with
    | none => none
    | some t1 => Session.runAny fuel t1 cs

/-- The session right after construction over a memory with content `m0`. -/
def Session.startOn (m0 : Mem) (addr size : Nat) : Session :=
  { state := construct m0 addr size, live := [], returned := [] }

/-- Sum of the usable sizes of the blocks behind the payload pointers `ps`. -/
def usableSum (m : Mem) (ps : List Nat) : Nat :=
  (ps.map (fun p => (m (p - sizeofMCB)).size)).sum

/-- Sum of header size plus usable size over the blocks `bl`. -/
def blockSum (m : Mem) (bl : List Nat) : Nat :=
  (bl.map (fun b => sizeofMCB + (m b).size)).sum

/-- The blocks `bl`, in address order, tile the bytes from `a` to `e`: each
block starts where the one before it ends. -/
def IsTiling (m : Mem) : Nat → Nat → List Nat → Prop
  | a, e, [] => a = e
  | a, e, b :: bl => a = b ∧ IsTiling m (b + sizeofMCB + (m b).size) e bl

/-- Every link field of a block of the set `P` is null or a block of `P`. -/
def LinksIn (P : Nat → Prop) (m : Mem) : Prop :=
  ∀ a, P a → ((m a).next = 0 ∨ P (m a).next) ∧ ((m a).prev = 0 ∨ P (m a).prev)

/-- The set `P` of blocks is closed under the links of the state `s`: both list
heads and every link field of a block of `P` are null or in `P`. -/
structure Closed (P : Nat → Prop) (s : Allocator) : Prop where
  freeHead : s.freeList = 0 ∨ P s.freeList
  usedHead : s.usedList = 0 ∨ P s.usedList
  links : LinksIn P s.mem

/-- The states in which every block of the closed set `P` has a usable size
that is a multiple of 32, and every pointer that `Allocate` has returned is
null or the payload of a block of `P`. -/
structure Rounded (P : Nat → Prop) (t : Session) : Prop where
  closed : Closed P t.state
  sizes : ∀ a, P a → 32 ∣ (t.state.mem a).size
  returned : ∀ p ∈ t.returned, p = 0 ∨ P (p - sizeofMCB)

/-- The states in which the blocks `bl` tile the region `(base, S)` in address
order and form a set that is closed under the links. -/
structure Tiled (base S : Nat) (s : Allocator) (bl : List Nat) : Prop where
  addr_eq : s.addr = base
  size_eq : s.size = S
  tiling : IsTiling s.mem base (base + S) bl
  closed : Closed (fun a => a ∈ bl) s

/-- A session whose state is tiled by `bl` and in which every pointer that
`Allocate` has returned is null or the payload of a block of `bl`. -/
structure Placed (base S : Nat) (t : Session) (bl : List Nat) : Prop where
  tiled : Tiled base S t.state bl
  returned : ∀ p ∈ t.returned, p = 0 ∨ p - sizeofMCB ∈ bl

instance IsDChain.instDecidable (m : Mem) :
    ∀ (prev head : Nat) (l : List Nat), Decidable (IsDChain m prev head l)
  | _, head, [] => inferInstanceAs (Decidable (head = 0))
  | prev, head, a :: l =>
    have := IsDChain.instDecidable m a (m a).next l
    inferInstanceAs (Decidable (head = a ∧ a ≠ 0 ∧ (m a).prev = prev ∧
      IsDChain m a (m a).next l))

/-- A state over the region of 2048 bytes at 4096 with three blocks on a
well-formed free list, in the order 4096 (64 bytes), 4192 (992 bytes), 5216
(896 bytes), and an empty used list. -/
def sampleState3 : Allocator :=
  { addr := 4096, size := 2048, freeList := 4096, usedList := 0,
    mem := fun a =>
      if a = 4096 then ⟨0, 4192, 64⟩
      else if a = 4192 then ⟨4096, 5216, 992⟩
      else if a = 5216 then ⟨4192, 0, 896⟩
      else ⟨0, 0, 0⟩ }

/-! ## Rounding, field reads, and the search -/

/-- Masking with `~31` on 64 bits clears the five low bits. -/
theorem land_mask (x : Nat) (hx : x < 2 ^ 64) :
    x &&& (2 ^ 64 - 1 - 31) = x / 32 * 32 := by
  have e1 : (2 ^ 64 - 1 - 31 : Nat) = (2 ^ 59 - 1) <<< 5 := by decide
  have e2 : x / 32 * 32 = (x >>> 5) <<< 5 := by
    rw [Nat.shiftLeft_eq, Nat.shiftRight_eq_div_pow]
  rw [e1, e2]
  apply Nat.eq_of_testBit_eq
  intro i
  simp only [Nat.testBit_and, Nat.testBit_shiftLeft, Nat.testBit_shiftRight,
    Nat.testBit_two_pow_sub_one]
  by_cases h5 : 5 ≤ i
  · have e : 5 + (i - 5) = i := by omega
    rw [e]
    by_cases h64 : i < 64
    · have : i - 5 < 59 := by omega
      simp [h5, this]
    · have hlt : x < 2 ^ i := lt_of_lt_of_le hx (Nat.pow_le_pow_right (by decide) (by omega))
      simp [Nat.testBit_lt_two_pow hlt]
  · simp [h5]

/-- The rounding of `Allocate` in terms of division: `size + 31` wraps modulo
`2 ^ 64` and is then rounded down to a multiple of 32. -/
theorem alloc_size_eq (n : Nat) :
    alloc_size n = (n + 31) % 18446744073709551616 / 32 * 32 := by
  unfold alloc_size size_mask size_offset wordMod sizeofMCB
  exact land_mask _ (Nat.mod_lt _ (by decide))

/-- A multiple of 32 below `2 ^ 64` is its own rounding. -/
theorem alloc_size_of_multiple (k : Nat) (hk : k / 32 * 32 + 31 < 18446744073709551616) :
    alloc_size (k / 32 * 32) = k / 32 * 32 := by
  rw [alloc_size_eq]
  omega

@[simp] theorem setNext_size (m : Mem) (p v a : Nat) : ((setNext m p v) a).size = (m a).size := by
  unfold setNext; split <;> simp_all

@[simp] theorem setPrev_size (m : Mem) (p v a : Nat) : ((setPrev m p v) a).size = (m a).size := by
  unfold setPrev; split <;> simp_all

/-- After a split the block that is handed out has exactly the rounded size. -/
theorem splitBlock_size_self (m : Mem) (asz c : Nat) : (splitBlock m asz c c).size = asz := by
  simp [splitBlock, setSize]

/-- Sizes change in the split only. -/
theorem takeBlock_size (s : Allocator) (asz c a : Nat) :
    ((takeBlock s asz c).2.mem a).size =
      ((if splitCond s asz c then splitBlock s.mem asz c else s.mem) a).size := by
  simp only [takeBlock]
  split_ifs <;> simp

/-- The size of the block that `Allocate` hands out. -/
theorem takeBlock_size_self (s : Allocator) (asz c : Nat) :
    ((takeBlock s asz c).2.mem c).size = if splitCond s asz c then asz else (s.mem c).size := by
  rw [takeBlock_size]
  split_ifs
  · exact splitBlock_size_self _ _ _
  · rfl

/-- The method `Deallocate` changes no size. -/
theorem Deallocate_size (s : Allocator) (p a : Nat) :
    ((Deallocate s p).mem a).size = (s.mem a).size := by
  simp only [Deallocate]
  split_ifs <;> simp

/-- After `Deallocate(p)` the block in front of `p` heads the free list. -/
theorem Deallocate_freeList (s : Allocator) (p : Nat) (hp : p ≠ 0) :
    (Deallocate s p).freeList = p - sizeofMCB := by
  simp [Deallocate, hp]

@[simp] theorem Deallocate_addr (s : Allocator) (p : Nat) : (Deallocate s p).addr = s.addr := by
  simp only [Deallocate]; split_ifs <;> rfl

@[simp] theorem Deallocate_regionSize (s : Allocator) (p : Nat) :
    (Deallocate s p).size = s.size := by
  simp only [Deallocate]; split_ifs <;> rfl

@[simp] theorem takeBlock_addr (s : Allocator) (asz c : Nat) :
    (takeBlock s asz c).2.addr = s.addr := rfl

@[simp] theorem takeBlock_regionSize (s : Allocator) (asz c : Nat) :
    (takeBlock s asz c).2.size = s.size := rfl

theorem takeBlock_fst (s : Allocator) (asz c : Nat) : (takeBlock s asz c).1 = c + sizeofMCB := rfl

/-- A first block that is large enough is found at once. -/
theorem findFit_hit (m : Mem) (asz fuel c : Nat) (hc : c ≠ 0) (h : asz ≤ (m c).size) :
    findFit m asz (fuel + 1) c = some c := by
  simp [findFit, hc, Nat.not_lt.mpr h]

/-- When the head of the free list is large enough, `Allocate` takes it. -/
theorem Allocate_hit (fuel : Nat) (s : Allocator) (n : Nat) (hf : s.freeList ≠ 0)
    (h : alloc_size n ≤ (s.mem s.freeList).size) :
    Allocate (fuel + 1) s n = some (takeBlock s (alloc_size n) s.freeList) := by
  simp [Allocate, findFit_hit _ _ _ _ hf h, hf]

/-- The constructor gives the first block the region size minus one header. -/
theorem construct_size_head (m0 : Mem) (base S : Nat) :
    ((construct m0 base S).mem base).size = sub64 S sizeofMCB := by
  simp [construct, setSize]

/-- Without borrow, `size_t` subtraction is subtraction. -/
theorem sub64_of_le (a b : Nat) (hb : b ≤ a) (ha : a < 18446744073709551616) :
    sub64 a b = a - b := by
  unfold sub64 wordMod
  norm_num
  omega

/-- On a null-terminated chain the search returns: null when every block is
too small, the first block that is large enough otherwise. -/
theorem findFit_chain (m : Mem) (asz : Nat) :
    ∀ (l : List Nat) (cur fuel : Nat), IsChain m cur l → l.length ≤ fuel →
      (findFit m asz fuel cur = some 0 ∧ ∀ b ∈ l, (m b).size < asz) ∨
      (∃ pre b post, l = pre ++ b :: post ∧ (∀ a ∈ pre, (m a).size < asz) ∧
          asz ≤ (m b).size ∧ b ≠ 0 ∧ findFit m asz fuel cur = some b) := by
  intro l
  induction l with
  | nil =>
    intro cur fuel hc _
    left
    have h0 : cur = 0 := hc
    subst h0
    cases fuel <;> simp [findFit]
  | cons a l ih =>
    intro cur fuel hc hfuel
    obtain ⟨h1, h2, h3⟩ := hc
    subst h1
    cases fuel with
    | zero => simp at hfuel
    | succ k =>
      have hk : l.length ≤ k := by simpa using hfuel
      by_cases hsz : (m cur).size < asz
      · rcases ih (m cur).next k h3 hk with ⟨hf, hall⟩ | ⟨pre, b, post, hl, hpre, hb, hb0, hf⟩
        · left
          refine ⟨by simp [findFit, h2, hsz, hf], ?_⟩
          intro b hb
          rcases List.mem_cons.mp hb with rfl | hb
          · exact hsz
          · exact hall b hb
        · right
          refine ⟨cur :: pre, b, post, by simp [hl], ?_, hb, hb0, by simp [findFit, h2, hsz, hf]⟩
          intro x hx
          rcases List.mem_cons.mp hx with rfl | hx
          · exact hsz
          · exact hpre x hx
      · right
        exact ⟨[], cur, l, rfl, by simp, Nat.le_of_not_lt hsz, h2, by simp [findFit, h2, hsz]⟩

/-- While the list from `current` comes back to `current` itself and the block
is too small, the search never finishes. -/
theorem findFit_self_loop (m : Mem) (asz c : Nat) (hc : c ≠ 0)
    (hsize : (m c).size < asz) (hnext : (m c).next = c) :
    ∀ fuel, findFit m asz fuel c = none := by
  intro fuel
  induction fuel with
  | zero => simp [findFit, hc]
  | succ k ih => simp [findFit, hc, hsize, hnext, ih]

/-! ## Requests on a fresh allocator -/

/-- Without overflow of `size + 31` the rounded size is at least the request. -/
theorem alloc_size_ge (n : Nat) (hn : n + 31 < 2 ^ 64) : n ≤ alloc_size n := by
  norm_num at hn
  rw [alloc_size_eq]
  omega

/-- On a fresh allocator a request above the maximum size that does not
overflow the rounding returns null. -/
theorem fresh_allocate_above_max (m0 : Mem) (base S n fuel : Nat) (hbase : base ≠ 0)
    (hS : 32 < S) (hS64 : S < 2 ^ 64) (hn : (S - 32) / 32 * 32 < n) (hn64 : n + 31 < 2 ^ 64)
    (hfuel : 0 < fuel) :
    Allocate fuel (construct m0 base S) n = some (0, construct m0 base S) := by
  obtain ⟨k, rfl⟩ : ∃ k, fuel = k + 1 := ⟨fuel - 1, by omega⟩
  norm_num at hS64 hn64
  have hsz0 : ((construct m0 base S).mem base).size = S - 32 := by
    rw [construct_size_head, sizeofMCB, sub64_of_le _ _ (by omega) hS64]
  have hnext0 : ((construct m0 base S).mem base).next = 0 := by simp [construct, setSize, setNext]
  have hasz : S - 32 < alloc_size n := by
    rw [alloc_size_eq]
    omega
  have hfind : findFit (construct m0 base S).mem (alloc_size n) (k + 1)
      (construct m0 base S).freeList = some 0 := by
    have hfl : (construct m0 base S).freeList = base := rfl
    rw [hfl]
    simp only [findFit, hbase, if_false, hsz0, hasz, if_true, hnext0]
    cases k <;> simp [findFit]
  simp [Allocate, hfind]

/-- The first scenario of `main.cpp`: the three allocations succeed and, once
they are freed in the same order, the used list is empty. -/
theorem main_scenario1 :
    ((Session.start 4096 1024).run 8
        [.allocate 480, .allocate 224, .allocate 224, .deallocate 4128, .deallocate 4640,
         .deallocate 4896]).map
      (fun t => (t.returned, t.live, t.state.usedList, destructorOk t.state,
                 walk t.state.mem 8 t.state.freeList))
      = some ([4896, 4640, 4128], [], 0, true, [4864, 4608, 4096]) := by
  decide

/-! ## Chains under stores -/

@[simp] theorem setNext_next (m : Mem) (p v a : Nat) :
    ((setNext m p v) a).next = if a = p then v else (m a).next := by
  unfold setNext; split <;> simp_all

@[simp] theorem setNext_prev (m : Mem) (p v a : Nat) :
    ((setNext m p v) a).prev = (m a).prev := by
  unfold setNext; split <;> simp_all

@[simp] theorem setPrev_prev (m : Mem) (p v a : Nat) :
    ((setPrev m p v) a).prev = if a = p then v else (m a).prev := by
  unfold setPrev; split <;> simp_all

@[simp] theorem setPrev_next (m : Mem) (p v a : Nat) :
    ((setPrev m p v) a).next = (m a).next := by
  unfold setPrev; split <;> simp_all

@[simp] theorem setSize_size (m : Mem) (p v a : Nat) :
    ((setSize m p v) a).size = if a = p then v else (m a).size := by
  unfold setSize; split <;> simp_all

@[simp] theorem setSize_next (m : Mem) (p v a : Nat) :
    ((setSize m p v) a).next = (m a).next := by
  unfold setSize; split <;> simp_all

@[simp] theorem setSize_prev (m : Mem) (p v a : Nat) :
    ((setSize m p v) a).prev = (m a).prev := by
  unfold setSize; split <;> simp_all

theorem IsChain.congr_next {m m1 : Mem} :
    ∀ (l : List Nat) (head : Nat), (∀ a ∈ l, (m1 a).next = (m a).next) →
      IsChain m head l → IsChain m1 head l := by
  intro l
  induction l with
  | nil => intro head _ h; exact h
  | cons a l ih =>
    intro head hm h
    obtain ⟨h1, h2, h3⟩ := h
    refine ⟨h1, h2, ?_⟩
    rw [hm a (by simp)]
    exact ih _ (fun b hb => hm b (by simp [hb])) h3

theorem IsDChain.congr_links {m m1 : Mem} :
    ∀ (l : List Nat) (prev head : Nat),
      (∀ a ∈ l, (m1 a).next = (m a).next ∧ (m1 a).prev = (m a).prev) →
      IsDChain m prev head l → IsDChain m1 prev head l := by
  intro l
  induction l with
  | nil => intro prev head _ h; exact h
  | cons a l ih =>
    intro prev head hm h
    obtain ⟨h1, h2, h3, h4⟩ := h
    refine ⟨h1, h2, ?_, ?_⟩
    · rw [(hm a (by simp)).2]; exact h3
    · rw [(hm a (by simp)).1]
      exact ih _ _ (fun b hb => hm b (by simp [hb])) h4

theorem IsDChain.block_ne_zero {m : Mem} :
    ∀ (l : List Nat) (prev head : Nat), IsDChain m prev head l → ∀ a ∈ l, a ≠ 0 := by
  intro l
  induction l with
  | nil => intro _ _ _ a ha; simp at ha
  | cons b l ih =>
    intro prev head h a ha
    obtain ⟨_, h2, _, h4⟩ := h
    rcases List.mem_cons.mp ha with rfl | ha
    · exact h2
    · exact ih _ _ h4 a ha

theorem IsChain.mem_ne_zero {m : Mem} :
    ∀ (l : List Nat) (head : Nat), IsChain m head l → ∀ a ∈ l, a ≠ 0 := by
  intro l
  induction l with
  | nil => intro _ _ a ha; simp at ha
  | cons b l ih =>
    intro head h a ha
    obtain ⟨_, h2, h4⟩ := h
    rcases List.mem_cons.mp ha with rfl | ha
    · exact h2
    · exact ih _ h4 a ha

/-- The head of a chain is null or its first block. -/
theorem IsDChain.head_eq {m : Mem} {prev head : Nat} {l : List Nat}
    (h : IsDChain m prev head l) : head = l.headD 0 := by
  cases l with
  | nil => exact h
  | cons a l => exact h.1

/-- Pushing in front of a doubly linked chain: only the `prev` of its first
block changes. -/
theorem IsDChain.rehead {m m1 : Mem} {l : List Nat} {prev head : Nat} (p1 : Nat)
    (h : IsDChain m prev head l) (hnd : l.Nodup)
    (hnext : ∀ a ∈ l, (m1 a).next = (m a).next)
    (hprev : ∀ a ∈ l, (m1 a).prev = if a = head then p1 else (m a).prev) :
    IsDChain m1 p1 head l := by
  cases l with
  | nil => exact h
  | cons a l =>
    obtain ⟨h1, h2, _, h4⟩ := h
    subst h1
    have hnot : head ∉ l := (List.nodup_cons.mp hnd).1
    refine ⟨rfl, h2, by simp [hprev head (by simp)], ?_⟩
    rw [hnext head (by simp)]
    refine IsDChain.congr_links l _ _ (fun b hb => ⟨hnext b (by simp [hb]), ?_⟩) h4
    have hne : b ≠ head := fun e => hnot (e ▸ hb)
    simp [hprev b (by simp [hb]), hne]

/-! ## Allocation while carving -/

theorem findFit_null (m : Mem) (asz fuel : Nat) : findFit m asz fuel 0 = some 0 := by
  cases fuel <;> simp [findFit]

theorem findFit_single_miss (m : Mem) (asz fuel c : Nat) (hc : c ≠ 0)
    (hsz : (m c).size < asz) (hnext : (m c).next = 0) :
    findFit m asz (fuel + 1) c = some 0 := by
  simp [findFit, hc, hsz, hnext, findFit_null]

/-- Inside a region that ends at most 32 bytes below `2 ^ 64`, a split that
is taken was decided without any wrap-around. -/
theorem splitCond_spec {base S : Nat} {s : Allocator} {asz f : Nat}
    (ha : s.addr = base) (hs : s.size = S)
    (hS : S ≤ 2 ^ 64 - 32) (hend : base + S ≤ 2 ^ 64)
    (hf : base ≤ f) (hin : f + 32 + (s.mem f).size ≤ base + S)
    (hfit : asz ≤ (s.mem f).size) (hsc : splitCond s asz f = true) :
    asz + 64 ≤ (s.mem f).size ∧ (f + sizeofMCB + asz) % wordMod = f + 32 + asz := by
  norm_num at hS hend
  simp only [splitCond, Bool.and_eq_true, decide_eq_true_eq, ha, hs, sizeofMCB, wordMod] at hsc
  norm_num at hsc
  simp only [sizeofMCB, wordMod]
  norm_num
  omega

theorem takeBlock_nosplit {s : Allocator} {asz f : Nat} (hsc : splitCond s asz f = false)
    (hprev : (s.mem f).prev = 0) (hnext : (s.mem f).next = 0) (hf : s.freeList = f) :
    (takeBlock s asz f).2 =
      { s with
        mem := setNext (if s.usedList ≠ 0 then setPrev s.mem s.usedList f else s.mem) f
          s.usedList,
        freeList := 0, usedList := f } := by
  simp [takeBlock, hsc, hprev, hnext, hf]

theorem takeBlock_split {s : Allocator} {asz f q : Nat} (hsc : splitCond s asz f = true)
    (hprev : (s.mem f).prev = 0) (hf : s.freeList = f)
    (hq : (f + sizeofMCB + asz) % wordMod = q) (hqf : q ≠ f) (hq0 : q ≠ 0) :
    (takeBlock s asz f).2 =
      { s with
        mem := setNext
          (if s.usedList ≠ 0 then setPrev (setPrev (splitBlock s.mem asz f) q 0) s.usedList f
           else setPrev (splitBlock s.mem asz f) q 0) f s.usedList,
        freeList := q, usedList := f } := by
  have e1 : (splitBlock s.mem asz f f).prev = 0 := by
    simp [splitBlock, hq, Ne.symm hqf, hprev]
  have e2 : (splitBlock s.mem asz f f).next = q := by
    simp [splitBlock, hq]
  simp [takeBlock, hsc, hf, e1, e2, hq0, Ne.symm hqf]

/-- The memory after a split, field by field. -/
theorem splitBlock_apply {m : Mem} {asz f q : Nat} (hq : (f + sizeofMCB + asz) % wordMod = q)
    (hqf : q ≠ f) (a : Nat) :
    splitBlock m asz f a =
      if a = f then { prev := (m f).prev, next := q, size := asz }
      else if a = q then
        { prev := f, next := (m f).next, size := sub64 (sub64 (m f).size asz) sizeofMCB }
      else m a := by
  simp only [splitBlock, hq, setNext, setPrev, setSize]
  by_cases h1 : a = f
  · subst h1; simp [Ne.symm hqf]
  · by_cases h2 : a = q
    · subst h2; simp [h1, Ne.symm h1]
    · simp [h1, h2]

/-- One `Allocate` while carving: it returns, the state stays of the same
kind with the returned block pushed on the used list, and every block is
small once a split has happened. -/
theorem Carving.allocate_step {base S : Nat} {s : Allocator} {ul : List Nat}
    (h : Carving base S s ul) (hbase : base ≠ 0) (hS : S ≤ 2 ^ 64 - 32)
    (hend : base + S ≤ 2 ^ 64) (n fuel : Nat) (hfuel : 0 < fuel) :
    ∃ p s1, Allocate fuel s n = some (p, s1) ∧
      Carving base S s1 (if p = 0 then ul else (p - sizeofMCB) :: ul) ∧
      (splits fuel s n = true → Small S s1 (if p = 0 then ul else (p - sizeofMCB) :: ul)) ∧
      (Small S s ul → Small S s1 (if p = 0 then ul else (p - sizeofMCB) :: ul)) := by
  obtain ⟨k, rfl⟩ : ∃ k, fuel = k + 1 := ⟨fuel - 1, by omega⟩
  rcases h.free with hf0 | ⟨hfb, hnext, hprev, hin, hlt⟩
  · -- the free list is empty
    have hfind : findFit s.mem (alloc_size n) (k + 1) s.freeList = some 0 := by
      rw [hf0]; exact findFit_null _ _ _
    refine ⟨0, s, by simp [Allocate, hfind], by simpa using h, ?_, by simp⟩
    simp [splits, hfind]
  · have hfne : s.freeList ≠ 0 := by omega
    by_cases hfit : (s.mem s.freeList).size < alloc_size n
    · -- the only free block is too small
      have hfind : findFit s.mem (alloc_size n) (k + 1) s.freeList = some 0 :=
        findFit_single_miss _ _ _ _ hfne hfit hnext
      refine ⟨0, s, by simp [Allocate, hfind], by simpa using h, ?_, by simp⟩
      simp [splits, hfind]
    · have hfit1 : alloc_size n ≤ (s.mem s.freeList).size := Nat.le_of_not_lt hfit
      have hfind : findFit s.mem (alloc_size n) (k + 1) s.freeList = some s.freeList :=
        findFit_hit _ _ _ _ hfne hfit1
      have hp : s.freeList + sizeofMCB ≠ 0 := by simp [sizeofMCB]
      have hul0 : ∀ u ∈ ul, u ≠ 0 := IsDChain.block_ne_zero _ _ _ h.used
      have hfnot : s.freeList ∉ ul := fun hm => Nat.lt_irrefl _ (hlt _ hm)
      have hhead : s.usedList = ul.headD 0 := h.used.head_eq
      have hused_mem : s.usedList ≠ 0 → s.usedList ∈ ul := by
        intro hne
        cases ul with
        | nil => exact absurd hhead hne
        | cons a l => simp [hhead]
      refine ⟨s.freeList + sizeofMCB, (takeBlock s (alloc_size n) s.freeList).2,
        by simp [Allocate, hfind, hfne, takeBlock], ?_⟩
      simp only [hp, if_false, Nat.add_sub_cancel]
      cases hsc : splitCond s (alloc_size n) s.freeList with
      | false =>
        rw [takeBlock_nosplit hsc hprev hnext rfl]
        have hchain : IsDChain
            (setNext (if s.usedList ≠ 0 then setPrev s.mem s.usedList s.freeList else s.mem)
              s.freeList s.usedList) s.freeList s.usedList ul := by
          refine IsDChain.rehead s.freeList h.used h.nodup ?_ ?_
          · intro a ha
            have : a ≠ s.freeList := fun e => hfnot (e ▸ ha)
            split_ifs <;> simp [this]
          · intro a ha
            have ha0 := hul0 a ha
            split_ifs with h1 h2 h2
            · simp [h2]
            · simp [h2]
            · exfalso; apply h1; rw [← h2]; exact ha0
            · simp
        have hsz : ∀ a, ((setNext (if s.usedList ≠ 0 then setPrev s.mem s.usedList s.freeList
            else s.mem) s.freeList s.usedList) a).size = (s.mem a).size := by
          intro a; split_ifs <;> simp
        have hsmall : Small S s ul → Small S
            { s with
              mem := setNext (if s.usedList ≠ 0 then setPrev s.mem s.usedList s.freeList
                else s.mem) s.freeList s.usedList,
              freeList := 0, usedList := s.freeList } (s.freeList :: ul) := by
          intro hsm
          refine ⟨?_, by simp⟩
          intro u hu
          simp only [hsz]
          rcases List.mem_cons.mp hu with rfl | hu
          · exact hsm.2 hfne
          · exact hsm.1 u hu
        refine ⟨?_, ?_, hsmall⟩
        · refine ⟨h.addr_eq, h.size_eq, ?_, List.nodup_cons.mpr ⟨hfnot, h.nodup⟩, Or.inl rfl,
            Or.inr (Or.inl rfl)⟩
          refine ⟨rfl, hfne, ?_, ?_⟩
          · have : s.freeList ≠ s.usedList := fun e => by
              by_cases h0 : s.usedList = 0
              · exact hfne (e.trans h0)
              · exact hfnot (e ▸ hused_mem h0)
            split_ifs <;> simp [this, hprev]
          · simpa using hchain
        · intro hsp
          simp [splits, hfind, hfne, hsc] at hsp
      | true =>
        obtain ⟨hbig, hq⟩ := splitCond_spec h.addr_eq h.size_eq hS hend hfb hin hfit1 hsc
        have hqf : s.freeList + 32 + alloc_size n ≠ s.freeList := by omega
        have hq0 : s.freeList + 32 + alloc_size n ≠ 0 := by omega
        rw [takeBlock_split hsc hprev rfl hq hqf hq0]
        have hz64 : (s.mem s.freeList).size < 18446744073709551616 := by
          norm_num at hend; omega
        have hnewsize : sub64 (sub64 (s.mem s.freeList).size (alloc_size n)) sizeofMCB
            = (s.mem s.freeList).size - alloc_size n - 32 := by
          rw [sub64_of_le _ _ hfit1 hz64, sizeofMCB, sub64_of_le _ _ (by omega) (by omega)]
        have hqnot : s.freeList + 32 + alloc_size n ∉ ul := fun hm => by
          have := hlt _ hm; omega
        have hfu : s.freeList ≠ s.usedList := fun e => by
          by_cases h0 : s.usedList = 0
          · exact hfne (e.trans h0)
          · exact hfnot (e ▸ hused_mem h0)
        have hqu : s.freeList + 32 + alloc_size n ≠ s.usedList := fun e => by
          by_cases h0 : s.usedList = 0
          · exact hq0 (e.trans h0)
          · exact hqnot (e ▸ hused_mem h0)
        generalize hM : setNext
          (if s.usedList ≠ 0 then
            setPrev (setPrev (splitBlock s.mem (alloc_size n) s.freeList)
              (s.freeList + 32 + alloc_size n) 0) s.usedList s.freeList
           else setPrev (splitBlock s.mem (alloc_size n) s.freeList)
              (s.freeList + 32 + alloc_size n) 0) s.freeList s.usedList = M
        have hMnext : ∀ a, (M a).next = if a = s.freeList then s.usedList
            else if a = s.freeList + 32 + alloc_size n then 0 else (s.mem a).next := by
          intro a
          rw [← hM]
          split_ifs <;> simp_all [splitBlock_apply hq hqf]
        have hMprev : ∀ a, (M a).prev = if a = s.usedList ∧ s.usedList ≠ 0 then s.freeList
            else if a = s.freeList + 32 + alloc_size n then 0
            else if a = s.freeList then 0 else (s.mem a).prev := by
          intro a
          rw [← hM]
          split_ifs <;> simp_all [splitBlock_apply hq hqf]
        have hMsize : ∀ a, (M a).size = if a = s.freeList then alloc_size n
            else if a = s.freeList + 32 + alloc_size n then
              (s.mem s.freeList).size - alloc_size n - 32
            else (s.mem a).size := by
          intro a
          rw [← hM]
          split_ifs <;> simp_all [splitBlock_apply hq hqf]
        have hchain : IsDChain M s.freeList s.usedList ul := by
          refine IsDChain.rehead s.freeList h.used h.nodup ?_ ?_
          · intro a ha
            have h1 : a ≠ s.freeList := fun e => hfnot (e ▸ ha)
            have h2 : a ≠ s.freeList + 32 + alloc_size n := fun e => hqnot (e ▸ ha)
            simp [hMnext, h1, h2]
          · intro a ha
            have h1 : a ≠ s.freeList := fun e => hfnot (e ▸ ha)
            have h2 : a ≠ s.freeList + 32 + alloc_size n := fun e => hqnot (e ▸ ha)
            have ha0 := hul0 a ha
            by_cases h3 : a = s.usedList
            · have : s.usedList ≠ 0 := h3 ▸ ha0
              simp [hMprev, h3, this]
            · simp [hMprev, h1, h2, h3]
        have hsmall : Small S
            { s with mem := M, freeList := s.freeList + 32 + alloc_size n,
                     usedList := s.freeList } (s.freeList :: ul) := by
          refine ⟨?_, ?_⟩
          · intro u hu
            rcases List.mem_cons.mp hu with rfl | hu
            · simp only [hMsize, if_true]; omega
            · have h1 : u ≠ s.freeList := fun e => hfnot (e ▸ hu)
              have h2 : u ≠ s.freeList + 32 + alloc_size n := fun e => hqnot (e ▸ hu)
              simp only [hMsize, h1, h2, if_false]
              rcases h.small with hnil | h0 | hsm
              · rw [hnil] at hu; simp at hu
              · exact absurd h0 hfne
              · exact hsm.1 u hu
          · intro _
            simp only [hMsize, hqf, if_false, if_true]
            omega
        refine ⟨?_, fun _ => hsmall, fun _ => hsmall⟩
        refine ⟨h.addr_eq, h.size_eq, ?_, List.nodup_cons.mpr ⟨hfnot, h.nodup⟩, Or.inr ?_,
          Or.inr (Or.inr hsmall)⟩
        · refine ⟨rfl, hfne, ?_, ?_⟩
          · simp [hMprev, hfu, Ne.symm hqf]
          · simpa [hMnext] using hchain
        · refine ⟨by simp only []; omega, by simp [hMnext, hqf], by simp [hMprev, hqu], ?_, ?_⟩
          · simp only [hMsize, hqf, if_false, if_true]; omega
          · intro u hu
            rcases List.mem_cons.mp hu with rfl | hu
            · simp only []; omega
            · have := hlt u hu; simp only []; omega

/-! ## Deallocation from a well-formed used list -/

theorem IsDChain.next_of_mem {m : Mem} {x : Nat} {post : List Nat} :
    ∀ (pre : List Nat) (prev head : Nat), IsDChain m prev head (pre ++ x :: post) →
      IsDChain m x (m x).next post ∧ x ≠ 0 := by
  intro pre
  induction pre with
  | nil => intro prev head h; exact ⟨h.2.2.2, h.2.1⟩
  | cons a pre ih => intro prev head h; exact ih _ _ h.2.2.2

theorem IsDChain.prev_of_mem {m : Mem} {x : Nat} {post : List Nat} :
    ∀ (pre : List Nat) (prev head : Nat), IsDChain m prev head (pre ++ x :: post) →
      (pre = [] → (m x).prev = prev) ∧ (pre ≠ [] → (m x).prev ∈ pre) := by
  intro pre
  induction pre with
  | nil => intro prev head h; exact ⟨fun _ => h.2.2.1, fun hne => absurd rfl hne⟩
  | cons a pre ih =>
    intro prev head h
    obtain ⟨h1, h2⟩ := ih a (m a).next h.2.2.2
    refine ⟨fun hne => absurd hne (by simp), fun _ => ?_⟩
    by_cases hpre : pre = []
    · simp [h1 hpre]
    · simp [h2 hpre]

/-- Taking the block `x` out of a doubly linked chain: the chain that is left
is well formed in every memory in which the `next` of the block before `x` and
the `prev` of the block after `x` have been redirected. -/
theorem IsDChain.unlink {m m1 : Mem} {x : Nat} {post : List Nat} :
    ∀ (pre : List Nat) (prev head : Nat), IsDChain m prev head (pre ++ x :: post) →
      (pre ++ x :: post).Nodup → prev ∉ pre ++ x :: post →
      (∀ a ∈ pre ++ post, (m1 a).next = if a = (m x).prev then (m x).next else (m a).next) →
      (∀ a ∈ pre ++ post, (m1 a).prev = if a = (m x).next then (m x).prev else (m a).prev) →
      IsDChain m1 prev (if pre = [] then (m x).next else head) (pre ++ post) ∧
        (pre = [] → (m x).prev = prev) ∧ (pre ≠ [] → (m x).prev ∈ pre) := by
  intro pre
  induction pre with
  | nil =>
    intro prev head h hnd hprev hn hp
    obtain ⟨_, hx0, hxp, hrest⟩ := h
    simp only [List.nil_append, List.nodup_cons, List.mem_cons, not_or] at hnd hprev hn hp
    refine ⟨?_, fun _ => hxp, fun hne => absurd rfl hne⟩
    simp only [if_true, List.nil_append]
    cases post with
    | nil => exact hrest
    | cons y post =>
      obtain ⟨hy, hy0, _, hrest2⟩ := hrest
      have hynot : y ∉ post := (List.nodup_cons.mp hnd.2).1
      have hyp : y ≠ prev := fun e => hprev.2 (by simp [e])
      refine ⟨hy, hy0, ?_, ?_⟩
      · rw [hp y (by simp), hy]; simp [hxp]
      · have e : (m1 y).next = (m y).next := by
          rw [hn y (by simp), hxp]; simp [hyp]
        rw [e]
        refine IsDChain.congr_links post _ _ (fun b hb => ⟨?_, ?_⟩) hrest2
        · have hbp : b ≠ prev := fun e => hprev.2 (by simp [← e, hb])
          rw [hn b (by simp [hb]), hxp]; simp [hbp]
        · have hby : b ≠ y := fun e => hynot (e ▸ hb)
          rw [hp b (by simp [hb]), hy]; simp [hby]
  | cons a pre ih =>
    intro prev head h hnd hprev hn hp
    obtain ⟨ha, ha0, hap, hrest⟩ := h
    have hnd2 : (pre ++ x :: post).Nodup := (List.nodup_cons.mp hnd).2
    have hanot : a ∉ pre ++ x :: post := (List.nodup_cons.mp hnd).1
    obtain ⟨hch, hnil, hcons⟩ := ih a (m a).next hrest hnd2 hanot
      (fun b hb => hn b (by
        rcases List.mem_append.mp hb with hb | hb
        · simp [hb]
        · simp [hb]))
      (fun b hb => hp b (by
        rcases List.mem_append.mp hb with hb | hb
        · simp [hb]
        · simp [hb]))
    have hxn := (IsDChain.next_of_mem pre a (m a).next hrest).1.head_eq
    have hanx : a ≠ (m x).next := by
      intro e
      cases post with
      | nil => exact ha0 (e.trans hxn)
      | cons y post =>
        have : (m x).next = y := hxn
        exact hanot (by simp [e, this])
    refine ⟨?_, fun hne => absurd hne (by simp), fun _ => ?_⟩
    · simp only [List.cons_append, reduceCtorEq, if_false]
      refine ⟨ha, ha0, ?_, ?_⟩
      · rw [hp a (by simp)]; simp [hanx, hap]
      · have e : (m1 a).next = if pre = [] then (m x).next else (m a).next := by
          rw [hn a (by simp)]
          by_cases hpre : pre = []
          · simp [hpre, hnil hpre]
          · have : a ≠ (m x).prev := fun e => hanot (by
              have := hcons hpre
              rw [← e] at this
              simp [this])
            simp [hpre, this]
        rw [e]
        exact hch
    · by_cases hpre : pre = []
      · simp [hnil hpre]
      · simp [hcons hpre]

/-- The `next` fields after the stores of `Deallocate`. -/
theorem unlinkPush_next (m : Mem) (x f xp xn a : Nat) :
    ((setNext
      (if f ≠ 0 then
        setPrev
          (if xp ≠ 0 then setNext (if xn ≠ 0 then setPrev m xn xp else m) xp xn
           else if xn ≠ 0 then setPrev m xn xp else m) f x
       else
          if xp ≠ 0 then setNext (if xn ≠ 0 then setPrev m xn xp else m) xp xn
          else if xn ≠ 0 then setPrev m xn xp else m)
      x f) a).next =
      if a = x then f else if a = xp ∧ xp ≠ 0 then xn else (m a).next := by
  split_ifs <;> simp_all

/-- The `prev` fields after the stores of `Deallocate`. -/
theorem unlinkPush_prev (m : Mem) (x f xp xn a : Nat) :
    ((setNext
      (if f ≠ 0 then
        setPrev
          (if xp ≠ 0 then setNext (if xn ≠ 0 then setPrev m xn xp else m) xp xn
           else if xn ≠ 0 then setPrev m xn xp else m) f x
       else
          if xp ≠ 0 then setNext (if xn ≠ 0 then setPrev m xn xp else m) xp xn
          else if xn ≠ 0 then setPrev m xn xp else m)
      x f) a).prev =
      if a = f ∧ f ≠ 0 then x else if a = xn ∧ xn ≠ 0 then xp else (m a).prev := by
  split_ifs <;> simp_all

theorem Freed.deallocate {s : Allocator} {fl pre post : List Nat} {p : Nat} (hp : p ≠ 0)
    (h : Freed s fl (pre ++ (p - sizeofMCB) :: post)) :
    Freed (Deallocate s p) ((p - sizeofMCB) :: fl) (pre ++ post) := by
  generalize hx : p - sizeofMCB = x at h
  have hnd := h.nodup
  have hndu : (pre ++ x :: post).Nodup := (List.nodup_append.mp hnd).2.1
  have hdisj : ∀ a ∈ fl, a ∉ pre ++ x :: post := fun a ha hb =>
    (List.nodup_append.mp hnd).2.2 ha hb
  have hul0 : ∀ a ∈ pre ++ x :: post, a ≠ 0 := IsDChain.block_ne_zero _ _ _ h.used
  have hfl0 : ∀ a ∈ fl, a ≠ 0 := IsChain.mem_ne_zero _ _ h.free
  obtain ⟨hpost, hx0⟩ := IsDChain.next_of_mem pre 0 s.usedList h.used
  have hxn := hpost.head_eq
  have hxmem : x ∈ pre ++ x :: post := by simp
  have hxnot : x ∉ pre ++ post := by
    intro hm
    have := List.nodup_middle.mp hndu
    exact (List.nodup_cons.mp this).1 hm
  have hxfl : x ∉ fl := fun hm => hdisj x hm hxmem
  have hfree_head : s.freeList = fl.headD 0 := by
    cases fl with
    | nil => exact h.free
    | cons a l => exact h.free.1
  have hfl_mem : s.freeList ≠ 0 → s.freeList ∈ fl := by
    intro hne
    cases fl with
    | nil => exact absurd hfree_head hne
    | cons a l => simp [hfree_head]
  have hxn_mem : (s.mem x).next ≠ 0 → (s.mem x).next ∈ post := by
    intro hne
    cases post with
    | nil => exact absurd hxn hne
    | cons a l => simp [hxn]
  have hxnx : x ≠ (s.mem x).next := by
    intro e
    by_cases h0 : (s.mem x).next = 0
    · exact hx0 (e.trans h0)
    · exact hxnot (by rw [e]; simp [hxn_mem h0])
  obtain ⟨hxp_nil, hxp_cons⟩ := IsDChain.prev_of_mem pre 0 s.usedList h.used
  have hxpx : x ≠ (s.mem x).prev := by
    intro e
    by_cases hpre : pre = []
    · exact hx0 (e.trans (hxp_nil hpre))
    · exact hxnot (by rw [e]; simp [hxp_cons hpre])
  have hxp_mem : (s.mem x).prev ≠ 0 → (s.mem x).prev ∈ pre := by
    intro hne
    by_cases hpre : pre = []
    · exact absurd (hxp_nil hpre) hne
    · exact hxp_cons hpre
  have hused_head : s.usedList = if pre = [] then x else s.usedList := by
    by_cases hpre : pre = []
    · subst hpre; simpa using h.used.1
    · simp [hpre]
  have hxu : x = s.usedList ↔ pre = [] := by
    constructor
    · intro e
      by_contra hpre
      cases pre with
      | nil => exact hpre rfl
      | cons a l =>
        have : s.usedList = a := h.used.1
        apply hxnot
        rw [e, this]; simp
    · intro hpre; rw [hused_head, if_pos hpre]
  have e1 : ((if (s.mem x).next ≠ 0 then setPrev s.mem (s.mem x).next (s.mem x).prev
      else s.mem) x).prev = (s.mem x).prev := by
    split_ifs <;> simp [hxnx]
  have e2 : ((if (s.mem x).next ≠ 0 then setPrev s.mem (s.mem x).next (s.mem x).prev
      else s.mem) x).next = (s.mem x).next := by
    split_ifs <;> simp
  have e3 : ((if (s.mem x).prev ≠ 0 then
        setNext (if (s.mem x).next ≠ 0 then setPrev s.mem (s.mem x).next (s.mem x).prev
          else s.mem) (s.mem x).prev (s.mem x).next
      else (if (s.mem x).next ≠ 0 then setPrev s.mem (s.mem x).next (s.mem x).prev
          else s.mem)) x).next = (s.mem x).next := by
    split_ifs <;> simp [hxpx]
  simp only [Deallocate, hp, if_false, hx, e1, e2, e3]
  generalize hM : setNext
      (if s.freeList ≠ 0 then
        setPrev
          (if (s.mem x).prev ≠ 0 then
            setNext (if (s.mem x).next ≠ 0 then setPrev s.mem (s.mem x).next (s.mem x).prev
                else s.mem) (s.mem x).prev (s.mem x).next
           else if (s.mem x).next ≠ 0 then setPrev s.mem (s.mem x).next (s.mem x).prev
                else s.mem)
          s.freeList x
       else
          if (s.mem x).prev ≠ 0 then
            setNext (if (s.mem x).next ≠ 0 then setPrev s.mem (s.mem x).next (s.mem x).prev
                else s.mem) (s.mem x).prev (s.mem x).next
          else if (s.mem x).next ≠ 0 then setPrev s.mem (s.mem x).next (s.mem x).prev
                else s.mem)
      x s.freeList = M
  have hMnext : ∀ a, (M a).next = if a = x then s.freeList
      else if a = (s.mem x).prev ∧ (s.mem x).prev ≠ 0 then (s.mem x).next
      else (s.mem a).next := by
    intro a
    rw [← hM]
    exact unlinkPush_next _ _ _ _ _ _
  have hMprev : ∀ a, (M a).prev = if a = s.freeList ∧ s.freeList ≠ 0 then x
      else if a = (s.mem x).next ∧ (s.mem x).next ≠ 0 then (s.mem x).prev
      else (s.mem a).prev := by
    intro a
    rw [← hM]
    exact unlinkPush_prev _ _ _ _ _ _
  have hfl_not : ∀ a ∈ pre ++ post, a ≠ s.freeList := by
    intro a ha e
    have ha0 : a ≠ 0 := hul0 a (by
      rcases List.mem_append.mp ha with ha | ha
      · simp [ha]
      · simp [ha])
    have hmem : s.freeList ∈ fl := hfl_mem (e ▸ ha0)
    refine hdisj _ hmem ?_
    rw [← e]
    rcases List.mem_append.mp ha with ha | ha
    · simp [ha]
    · simp [ha]
  have hunlink := (@IsDChain.unlink s.mem M x post pre 0 s.usedList h.used hndu
    (fun hm => hul0 0 hm rfl)
    (fun a ha => by
      have hax : a ≠ x := fun e => hxnot (e ▸ ha)
      have ha0 : a ≠ 0 := hul0 a (by
        rcases List.mem_append.mp ha with ha | ha
        · simp [ha]
        · simp [ha])
      rw [hMnext]
      by_cases hap : a = (s.mem x).prev
      · have : (s.mem x).prev ≠ 0 := hap ▸ ha0
        rw [if_neg hax, if_pos ⟨hap, this⟩, if_pos hap]
      · rw [if_neg hax, if_neg (fun h => hap h.1), if_neg hap])
    (fun a ha => by
      have haf := hfl_not a ha
      have ha0 : a ≠ 0 := hul0 a (by
        rcases List.mem_append.mp ha with ha | ha
        · simp [ha]
        · simp [ha])
      rw [hMprev]
      by_cases han : a = (s.mem x).next
      · have : (s.mem x).next ≠ 0 := han ▸ ha0
        rw [if_neg (fun h => haf h.1), if_pos ⟨han, this⟩, if_pos han]
      · rw [if_neg (fun h => haf h.1), if_neg (fun h => han h.1), if_neg han])).1
  refine ⟨⟨rfl, hx0, ?_⟩, ?_, ?_⟩
  · simp only [hMnext, if_true]
    refine IsChain.congr_next fl _ (fun a ha => ?_) h.free
    have hax : a ≠ x := fun e => hxfl (e ▸ ha)
    have hap : ¬ (a = (s.mem x).prev ∧ (s.mem x).prev ≠ 0) := by
      rintro ⟨e, hne⟩
      exact hdisj a ha (by rw [e]; simp [hxp_mem hne])
    simp [hMnext, hax, hap]
  · by_cases hpre : pre = []
    · simpa [hxu.mpr hpre, hpre] using hunlink
    · have : x ≠ s.usedList := fun e => hpre (hxu.mp e)
      simpa [this, hpre] using hunlink
  · have hperm : ((x :: fl) ++ (pre ++ post)).Perm (fl ++ (pre ++ x :: post)) := by
      have h1 : (fl ++ (pre ++ x :: post)) = (fl ++ pre) ++ x :: post := by simp
      have h2 : ((x :: fl) ++ (pre ++ post)) = x :: ((fl ++ pre) ++ post) := by simp
      rw [h1, h2]
      exact List.perm_middle.symm
    exact hperm.nodup_iff.mpr hnd

/-! ## The second scenario of `main.cpp` -/

/-- After construction, `Allocate` of the maximum size followed by
`Deallocate` of its result gives back one free block that spans the region. -/
theorem maxAlloc_then_free {base S : Nat} (m0 : Mem) (hbase : base ≠ 0) (h32 : 32 < S)
    (hS : S ≤ 2 ^ 64 - 32) (hend : base + S ≤ 2 ^ 64) (fuel : Nat) (hfuel : 0 < fuel) :
    ∃ s1, Allocate fuel (construct m0 base S) ((S - 32) / 32 * 32) = some (base + sizeofMCB, s1) ∧
      Carving base S (Deallocate s1 (base + sizeofMCB)) [] := by
  obtain ⟨k, rfl⟩ : ∃ k, fuel = k + 1 := ⟨fuel - 1, by omega⟩
  have hS1 : S ≤ 18446744073709551584 := by norm_num at hS; exact hS
  have hasz : alloc_size ((S - 32) / 32 * 32) = (S - 32) / 32 * 32 :=
    alloc_size_of_multiple _ (by omega)
  have hsz0 : ((construct m0 base S).mem base).size = S - 32 := by
    rw [construct_size_head, sizeofMCB, sub64_of_le _ _ (by omega) (by omega)]
  have hprev0 : ((construct m0 base S).mem base).prev = 0 := by simp [construct]
  have hnext0 : ((construct m0 base S).mem base).next = 0 := by simp [construct]
  have hfl0 : (construct m0 base S).freeList = base := rfl
  have hul0 : (construct m0 base S).usedList = 0 := rfl
  have h1 : Allocate (k + 1) (construct m0 base S) ((S - 32) / 32 * 32)
      = some (takeBlock (construct m0 base S) ((S - 32) / 32 * 32) base) := by
    have := Allocate_hit k (construct m0 base S) ((S - 32) / 32 * 32)
      (by rw [hfl0]; exact hbase) (by rw [hfl0, hsz0, hasz]; omega)
    rwa [hasz, hfl0] at this
  have hsc : splitCond (construct m0 base S) ((S - 32) / 32 * 32) base = false := by
    cases hc : splitCond (construct m0 base S) ((S - 32) / 32 * 32) base with
    | false => rfl
    | true =>
      exfalso
      have := (@splitCond_spec base S (construct m0 base S) _ base rfl rfl hS hend (Nat.le_refl base)
        (by rw [hsz0]; omega) (by rw [hsz0]; omega) hc).1
      rw [hsz0] at this
      omega
  refine ⟨(takeBlock (construct m0 base S) ((S - 32) / 32 * 32) base).2, h1, ?_⟩
  rw [takeBlock_nosplit hsc hprev0 hnext0 hfl0]
  have hp : base + sizeofMCB ≠ 0 := by simp [sizeofMCB]
  simp only [Deallocate, hp, if_false, Nat.add_sub_cancel, hul0]
  refine ⟨rfl, rfl, ?_, List.nodup_nil, Or.inr ?_, Or.inl rfl⟩
  · simp [IsDChain, hnext0, hprev0]
  · refine ⟨Nat.le_refl _, ?_, ?_, ?_, by simp⟩
    · simp
    · simp [hnext0, hprev0]
    · simp [hnext0, hprev0, hsz0]; omega

theorem Carving.toFreed {base S : Nat} {s : Allocator} {ul : List Nat}
    (h : Carving base S s ul) (hbase : base ≠ 0) :
    Freed s (if s.freeList = 0 then [] else [s.freeList]) ul := by
  rcases h.free with h0 | ⟨hb, hnext, _, _, hlt⟩
  · refine ⟨by simp [h0, IsChain], h.used, by simpa [h0] using h.nodup⟩
  · have hne : s.freeList ≠ 0 := by omega
    refine ⟨by simp [hne, IsChain, hnext], h.used, ?_⟩
    simp only [hne, if_false, List.singleton_append, List.nodup_cons]
    exact ⟨fun hm => Nat.lt_irrefl _ (hlt _ hm), h.nodup⟩

/-- One `Deallocate` of null or of the payload of a block of the used list. -/
theorem Freed.deallocate_any {s : Allocator} {fl ul : List Nat} {p : Nat}
    (h : Freed s fl ul) (hp : p = 0 ∨ p - sizeofMCB ∈ ul) :
    ∃ fl1 ul1, Freed (Deallocate s p) fl1 ul1 ∧ fl1.length ≤ fl.length + 1 ∧
      (∀ x ∈ fl1 ++ ul1, x ∈ fl ++ ul) ∧ (∀ x ∈ ul, x ≠ p - sizeofMCB → x ∈ ul1) := by
  by_cases hp0 : p = 0
  · subst hp0
    refine ⟨fl, ul, by simpa [Deallocate] using h, by omega, fun x hx => hx,
      fun x hx _ => hx⟩
  · have hmem : p - sizeofMCB ∈ ul := hp.resolve_left hp0
    obtain ⟨pre, post, rfl⟩ := List.append_of_mem hmem
    refine ⟨(p - sizeofMCB) :: fl, pre ++ post, Freed.deallocate hp0 h, by simp, ?_, ?_⟩
    · intro x hx
      simp only [List.cons_append, List.mem_cons, List.mem_append] at hx ⊢
      tauto
    · intro x hx hne
      rcases List.mem_append.mp hx with hx | hx
      · simp [hx]
      · rcases List.mem_cons.mp hx with rfl | hx
        · exact absurd rfl hne
        · simp [hx]

/-- On a well-formed free list `Allocate` returns, and it returns null when
every free block is smaller than the rounded request. -/
theorem Freed.allocate_returns {s : Allocator} {fl ul : List Nat} (h : Freed s fl ul) (n fuel : Nat)
    (hfuel : fl.length ≤ fuel) :
    ∃ d s1, Allocate fuel s n = some (d, s1) ∧
      ((∀ x ∈ fl, (s.mem x).size < alloc_size n) → d = 0) := by
  rcases findFit_chain s.mem (alloc_size n) fl s.freeList fuel h.free hfuel with
    ⟨hf, _⟩ | ⟨pre, b, post, hl, _, hb, hb0, hf⟩
  · exact ⟨0, s, by simp [Allocate, hf], fun _ => rfl⟩
  · refine ⟨b + sizeofMCB, (takeBlock s (alloc_size n) b).2,
      by simp [Allocate, hf, hb0, takeBlock], fun hall => ?_⟩
    have := hall b (by simp [hl])
    omega

/-- What one step of carving adds to the used list. -/
theorem pushed_facts (ul : List Nat) (p : Nat)
    (hnd : (if p = 0 then ul else (p - sizeofMCB) :: ul).Nodup) :
    (∀ x ∈ ul, x ∈ (if p = 0 then ul else (p - sizeofMCB) :: ul)) ∧
    (p ≠ 0 → p - sizeofMCB ∈ (if p = 0 then ul else (p - sizeofMCB) :: ul) ∧
      p - sizeofMCB ∉ ul) := by
  by_cases hp : p = 0
  · simp [hp]
  · simp only [hp, if_false] at hnd ⊢
    exact ⟨fun x hx => by simp [hx], fun _ => ⟨by simp, (List.nodup_cons.mp hnd).1⟩⟩


/-! ## The rounding without overflow -/

/-- For the requests up to `2 ^ 64 - 32` the rounded size is the least
multiple of 32 that is not below the request. -/
theorem alloc_size_least (n : Nat) (hn : n + 31 < 2 ^ 64) :
    32 ∣ alloc_size n ∧ n ≤ alloc_size n ∧ ∀ k, 32 ∣ k → n ≤ k → alloc_size n ≤ k := by
  norm_num at hn
  rw [alloc_size_eq]
  refine ⟨?_, by omega, ?_⟩
  · exact Dvd.intro_left _ rfl
  · rintro k ⟨j, rfl⟩ hk
    omega

/-- The rounded size is a multiple of 32 for every request. -/
theorem alloc_size_dvd (n : Nat) : 32 ∣ alloc_size n := by
  rw [alloc_size_eq]
  exact Dvd.intro_left _ rfl

/-! ## Sets of blocks that are closed under the links -/

theorem LinksIn.after_setNext {P : Nat → Prop} {m : Mem} (h : LinksIn P m) (p v : Nat)
    (hv : v = 0 ∨ P v) : LinksIn P (setNext m p v) := by
  intro a ha
  have := h a ha
  refine ⟨?_, by simpa using this.2⟩
  rw [setNext_next]
  split_ifs
  · exact hv
  · exact this.1

theorem LinksIn.after_setPrev {P : Nat → Prop} {m : Mem} (h : LinksIn P m) (p v : Nat)
    (hv : v = 0 ∨ P v) : LinksIn P (setPrev m p v) := by
  intro a ha
  have := h a ha
  refine ⟨by simpa using this.1, ?_⟩
  rw [setPrev_prev]
  split_ifs
  · exact hv
  · exact this.2

theorem LinksIn.after_setSize {P : Nat → Prop} {m : Mem} (h : LinksIn P m) (p v : Nat) :
    LinksIn P (setSize m p v) := by
  intro a ha
  simpa using h a ha

/-- The same links are closed under every set with the same members. -/
theorem LinksIn.of_iff {P Q : Nat → Prop} {m : Mem} (h : LinksIn P m)
    (hPQ : ∀ a, Q a ↔ P a) : LinksIn Q m := by
  intro a ha
  have := h a ((hPQ a).mp ha)
  exact ⟨this.1.imp id (hPQ _).mpr, this.2.imp id (hPQ _).mpr⟩

/-- A new block joins a closed set once both of its links have been stored. -/
theorem LinksIn.add_block {P : Nat → Prop} {m : Mem} (h : LinksIn P m) (q v1 v2 : Nat)
    (h1 : v1 = 0 ∨ P v1) (h2 : v2 = 0 ∨ P v2) :
    LinksIn (fun a => P a ∨ a = q) (setPrev (setNext m q v1) q v2) := by
  intro a ha
  simp only [setPrev_next, setNext_next, setPrev_prev, setNext_prev]
  by_cases haq : a = q
  · simp only [haq, if_true]
    exact ⟨h1.imp id Or.inl, h2.imp id Or.inl⟩
  · simp only [haq, if_false]
    have hPa : P a := ha.resolve_right haq
    exact ⟨(h a hPa).1.imp id Or.inl, (h a hPa).2.imp id Or.inl⟩

/-- The search only visits blocks of a closed set. -/
theorem findFit_closed {P : Nat → Prop} {m : Mem} (hl : LinksIn P m) (asz : Nat) :
    ∀ (fuel head c : Nat), (head = 0 ∨ P head) → findFit m asz fuel head = some c →
      c = 0 ∨ P c := by
  intro fuel
  induction fuel with
  | zero =>
    intro head c _ h
    by_cases h0 : head = 0
    · simp [findFit, h0] at h; exact Or.inl h.symm
    · simp [findFit, h0] at h
  | succ k ih =>
    intro head c hh h
    by_cases h0 : head = 0
    · simp [findFit, h0] at h; exact Or.inl h.symm
    · have hP : P head := hh.resolve_left h0
      by_cases hsz : (m head).size < asz
      · simp only [findFit, h0, if_false, hsz, if_true] at h
        exact ih _ _ (hl head hP).1 h
      · simp only [findFit, h0, if_false, hsz] at h
        exact Or.inr (by cases h; exact hP)

/-- A block that the search returns is large enough. -/
theorem findFit_fits (m : Mem) (asz : Nat) :
    ∀ (fuel head c : Nat), findFit m asz fuel head = some c → c ≠ 0 → asz ≤ (m c).size := by
  intro fuel
  induction fuel with
  | zero =>
    intro head c h hc
    by_cases h0 : head = 0
    · simp [findFit, h0] at h; exact absurd h.symm hc
    · simp [findFit, h0] at h
  | succ k ih =>
    intro head c h hc
    by_cases h0 : head = 0
    · simp [findFit, h0] at h; exact absurd h.symm hc
    · by_cases hsz : (m head).size < asz
      · simp only [findFit, h0, if_false, hsz, if_true] at h
        exact ih _ _ h hc
      · simp only [findFit, h0, if_false, hsz] at h
        cases h
        exact Nat.le_of_not_lt hsz

/-- The links after the split: the new block joins the closed set. -/
theorem LinksIn.after_split {P : Nat → Prop} {m : Mem} (h : LinksIn P m) (asz c : Nat)
    (hc : P c) :
    LinksIn (fun a => P a ∨ a = (c + sizeofMCB + asz) % wordMod) (splitBlock m asz c) := by
  unfold splitBlock
  refine LinksIn.after_setSize (LinksIn.after_setSize (LinksIn.after_setNext ?_ _ _ ?_) _ _) _ _
  · exact LinksIn.add_block h _ _ _ (h c hc).1 (Or.inr hc)
  · exact Or.inr (Or.inr rfl)

/-- The block handed out by `Allocate` and the block created by its split stay
inside a closed set of blocks once the new block is added to it. -/
theorem Closed.after_takeBlock {P : Nat → Prop} {s : Allocator} (h : Closed P s)
    (asz c : Nat) (hc : P c) :
    Closed (fun a => P a ∨ (splitCond s asz c = true ∧ a = (c + sizeofMCB + asz) % wordMod))
      (takeBlock s asz c).2 := by
  have hQ : ∀ a, (P a ∨ (splitCond s asz c = true ∧ a = (c + sizeofMCB + asz) % wordMod)) ↔
      (fun a => P a ∨ (splitCond s asz c = true ∧ a = (c + sizeofMCB + asz) % wordMod)) a :=
    fun a => Iff.rfl
  generalize (fun a => P a ∨ (splitCond s asz c = true ∧
    a = (c + sizeofMCB + asz) % wordMod)) = Q at hQ ⊢
  have hPQ : ∀ a, P a → Q a := fun a ha => (hQ a).mp (Or.inl ha)
  have hPQ0 : ∀ a, (a = 0 ∨ P a) → (a = 0 ∨ Q a) := fun a ha => ha.imp id (hPQ a)
  have hm0 : LinksIn Q (if splitCond s asz c then splitBlock s.mem asz c else s.mem) := by
    cases hsc : splitCond s asz c with
    | true =>
      simp only [if_true]
      refine (LinksIn.after_split h.links asz c hc).of_iff (fun a => ?_)
      rw [← hQ]; simp [hsc]
    | false =>
      simp only [Bool.false_eq_true, if_false]
      refine h.links.of_iff (fun a => ?_)
      rw [← hQ]; simp [hsc]
  simp only [takeBlock]
  generalize (if splitCond s asz c then splitBlock s.mem asz c else s.mem) = m0 at hm0 ⊢
  have hQc : Q c := hPQ c hc
  have hm1 : LinksIn Q (if (m0 c).prev ≠ 0 then setNext m0 (m0 c).prev (m0 c).next else m0) := by
    split_ifs
    · exact hm0.after_setNext _ _ (hm0 c hQc).1
    · exact hm0
  generalize (if (m0 c).prev ≠ 0 then setNext m0 (m0 c).prev (m0 c).next else m0) = m1 at hm1 ⊢
  have hm2 : LinksIn Q (if (m1 c).next ≠ 0 then setPrev m1 (m1 c).next (m1 c).prev else m1) := by
    split_ifs
    · exact hm1.after_setPrev _ _ (hm1 c hQc).2
    · exact hm1
  generalize (if (m1 c).next ≠ 0 then setPrev m1 (m1 c).next (m1 c).prev else m1) = m2 at hm2 ⊢
  have hm3 : LinksIn Q (if s.usedList ≠ 0 then setPrev m2 s.usedList c else m2) := by
    split_ifs
    · exact hm2.after_setPrev _ _ (Or.inr hQc)
    · exact hm2
  refine ⟨?_, Or.inr hQc, (hm3.after_setNext _ _ (hPQ0 _ h.usedHead))⟩
  show (if c = s.freeList then (m2 c).next else s.freeList) = 0 ∨
    Q (if c = s.freeList then (m2 c).next else s.freeList)
  split_ifs
  · exact (hm2 c hQc).1
  · exact hPQ0 _ h.freeHead

/-- The method `Deallocate` on a block of a closed set keeps the set closed. -/
theorem Closed.after_deallocate {P : Nat → Prop} {s : Allocator} (h : Closed P s) (p : Nat)
    (hp : p = 0 ∨ P (p - sizeofMCB)) : Closed P (Deallocate s p) := by
  by_cases hp0 : p = 0
  · simpa [Deallocate, hp0] using h
  have hx : P (p - sizeofMCB) := hp.resolve_left hp0
  simp only [Deallocate, hp0, if_false]
  generalize p - sizeofMCB = x at hx ⊢
  have hm1 : LinksIn P (if (s.mem x).next ≠ 0 then setPrev s.mem (s.mem x).next (s.mem x).prev
      else s.mem) := by
    split_ifs
    · exact h.links.after_setPrev _ _ (h.links x hx).2
    · exact h.links
  generalize (if (s.mem x).next ≠ 0 then setPrev s.mem (s.mem x).next (s.mem x).prev
      else s.mem) = m1 at hm1 ⊢
  have hm2 : LinksIn P (if (m1 x).prev ≠ 0 then setNext m1 (m1 x).prev (m1 x).next else m1) := by
    split_ifs
    · exact hm1.after_setNext _ _ (hm1 x hx).1
    · exact hm1
  generalize (if (m1 x).prev ≠ 0 then setNext m1 (m1 x).prev (m1 x).next else m1) = m2 at hm2 ⊢
  have hm3 : LinksIn P (if s.freeList ≠ 0 then setPrev m2 s.freeList x else m2) := by
    split_ifs
    · exact hm2.after_setPrev _ _ (Or.inr hx)
    · exact hm2
  refine ⟨Or.inr hx, ?_, hm3.after_setNext _ _ h.freeHead⟩
  show (if x = s.usedList then (m2 x).next else s.usedList) = 0 ∨
    P (if x = s.usedList then (m2 x).next else s.usedList)
  split_ifs
  · exact (hm2 x hx).1
  · exact h.usedHead

/-- Every block reached from a head of a closed set is in the set. -/
theorem walk_closed {P : Nat → Prop} {m : Mem} (hl : LinksIn P m) :
    ∀ (fuel head : Nat), (head = 0 ∨ P head) → ∀ a ∈ walk m fuel head, P a := by
  intro fuel
  induction fuel with
  | zero => intro head _ a ha; simp [walk] at ha
  | succ k ih =>
    intro head hh a ha
    by_cases h0 : head = 0
    · simp [walk, h0] at ha
    · have hP := hh.resolve_left h0
      simp only [walk, h0, if_false, List.mem_cons] at ha
      rcases ha with rfl | ha
      · exact hP
      · exact ih _ (hl head hP).1 a ha

/-! ## Usable sizes are multiples of 32 -/

/-- The sizes after the split. -/
theorem splitBlock_size (m : Mem) (asz c a : Nat) :
    (splitBlock m asz c a).size =
      if a = c then asz
      else if a = (c + sizeofMCB + asz) % wordMod then
        sub64 (sub64 (m c).size asz) sizeofMCB
      else (m a).size := by
  simp only [splitBlock, setSize_size, setNext_size, setPrev_size]

/-- Subtraction modulo `2 ^ 64` keeps multiples of 32. -/
theorem sub64_dvd (a b : Nat) (ha : 32 ∣ a) (hb : 32 ∣ b) : 32 ∣ sub64 a b := by
  unfold sub64 wordMod
  norm_num
  omega

/-- Every valid sequence of calls is a sequence in the wider sense, with the
same result, and the live pointers are non-null pointers that `Allocate` has
returned. -/
theorem Session.run_runAny (fuel : Nat) :
    ∀ (cs : List Call) (t t1 : Session), (∀ p ∈ t.live, p ∈ t.returned ∧ p ≠ 0) →
      t.run fuel cs = some t1 →
      t.runAny fuel cs = some t1 ∧ ∀ p ∈ t1.live, p ∈ t1.returned ∧ p ≠ 0 := by
  intro cs
  induction cs with
  | nil =>
    intro t t1 hlive h
    simp only [Session.run, Option.some.injEq] at h
    subst h
    exact ⟨rfl, hlive⟩
  | cons c cs ih =>
    intro t t1 hlive h
    simp only [Session.run] at h
    cases hstep : t.step fuel c with
    | none => simp [hstep] at h
    | some t2 =>
      rw [hstep] at h
      have key : t.stepAny fuel c = some t2 ∧ ∀ p ∈ t2.live, p ∈ t2.returned ∧ p ≠ 0 := by
        cases c with
        | allocate n =>
          simp only [Session.step] at hstep
          simp only [Session.stepAny]
          cases hA : Allocate fuel t.state n with
          | none => simp [hA] at hstep
          | some r =>
            obtain ⟨p, s⟩ := r
            simp only [hA, Option.some.injEq] at hstep
            subst hstep
            refine ⟨rfl, ?_⟩
            intro q hq
            simp only at hq ⊢
            by_cases hp : p = 0
            · simp only [hp, if_true] at hq
              exact ⟨List.mem_cons_of_mem _ (hlive q hq).1, (hlive q hq).2⟩
            · simp only [hp, if_false, List.mem_cons] at hq
              rcases hq with rfl | hq
              · exact ⟨by simp, hp⟩
              · exact ⟨List.mem_cons_of_mem _ (hlive q hq).1, (hlive q hq).2⟩
        | deallocate p =>
          simp only [Session.step] at hstep
          simp only [Session.stepAny]
          by_cases hp : p = 0 ∨ p ∈ t.live
          · simp only [hp, if_true, Option.some.injEq] at hstep
            subst hstep
            have hp2 : p = 0 ∨ p ∈ t.returned := hp.imp id (fun h => (hlive p h).1)
            refine ⟨by simp [hp2], ?_⟩
            intro q hq
            exact hlive q (List.mem_of_mem_erase hq)
          · simp [hp] at hstep
      simp only [Session.runAny, key.1]
      exact ih t2 t1 key.2 h

/-- Right after construction over a region whose size is a multiple of 32 the
only block has a size that is a multiple of 32. -/
theorem Rounded.at_start (m0 : Mem) (base S : Nat) (hS : 32 ∣ S) :
    Rounded (fun a => a = base) (Session.startOn m0 base S) := by
  refine ⟨⟨Or.inr rfl, Or.inl rfl, ?_⟩, ?_, ?_⟩
  · intro a ha
    have ha1 : a = base := ha
    subst ha1
    simp [Session.startOn, construct]
  · intro a ha
    have ha1 : a = base := ha
    subst ha1
    simp only [Session.startOn, construct, setSize_size, if_true]
    exact sub64_dvd _ _ hS (by decide)
  · intro p hp
    simp [Session.startOn] at hp

/-- One call keeps the sizes multiples of 32. -/
theorem Rounded.after_call {P : Nat → Prop} {t t1 : Session} (h : Rounded P t) (fuel : Nat)
    (c : Call) (hstep : t.stepAny fuel c = some t1) : ∃ Q, Rounded Q t1 := by
  cases c with
  | allocate n =>
    simp only [Session.stepAny] at hstep
    unfold Allocate at hstep
    cases hf : findFit t.state.mem (alloc_size n) fuel t.state.freeList with
    | none => simp [hf] at hstep
    | some c =>
      by_cases hc : c = 0
      · simp only [hf, hc, if_true, Option.some.injEq] at hstep
        subst hstep
        refine ⟨P, h.closed, h.sizes, ?_⟩
        intro p hp
        simp only [List.mem_cons] at hp
        rcases hp with rfl | hp
        · exact Or.inl rfl
        · exact h.returned p hp
      · simp only [hf, hc, if_false, Option.some.injEq] at hstep
        subst hstep
        have hPc : P c :=
          (findFit_closed h.closed.links _ _ _ _ h.closed.freeHead hf).resolve_left hc
        refine ⟨_, h.closed.after_takeBlock (alloc_size n) c hPc, ?_, ?_⟩
        · intro a ha
          show 32 ∣ ((takeBlock t.state (alloc_size n) c).2.mem a).size
          rw [takeBlock_size]
          cases hsc : splitCond t.state (alloc_size n) c with
          | false =>
            simp only [hsc, Bool.false_eq_true, false_and, or_false] at ha
            simpa using h.sizes a ha
          | true =>
            simp only [if_true, splitBlock_size]
            split_ifs with h1 h2
            · exact alloc_size_dvd n
            · exact sub64_dvd _ _ (sub64_dvd _ _ (h.sizes c hPc) (alloc_size_dvd n))
                (by decide)
            · simp only [hsc, true_and] at ha
              exact h.sizes a (ha.resolve_right h2)
        · intro p hp
          simp only [takeBlock, List.mem_cons] at hp
          rcases hp with rfl | hp
          · right; left
            simpa using hPc
          · exact (h.returned p hp).imp id Or.inl
  | deallocate p =>
    simp only [Session.stepAny] at hstep
    by_cases hp : p = 0 ∨ p ∈ t.returned
    · simp only [hp, if_true, Option.some.injEq] at hstep
      subst hstep
      have hp2 : p = 0 ∨ P (p - sizeofMCB) := by
        rcases hp with hp | hp
        · exact Or.inl hp
        · exact h.returned p hp
      refine ⟨P, h.closed.after_deallocate p hp2, ?_, h.returned⟩
      intro a ha
      show 32 ∣ ((Deallocate t.state p).mem a).size
      rw [Deallocate_size]
      exact h.sizes a ha
    · simp [hp] at hstep

/-- Every sequence of calls keeps the sizes multiples of 32. -/
theorem Rounded.after_calls (fuel : Nat) :
    ∀ (cs : List Call) (P : Nat → Prop) (t t1 : Session), Rounded P t →
      t.runAny fuel cs = some t1 → ∃ Q, Rounded Q t1 := by
  intro cs
  induction cs with
  | nil =>
    intro P t t1 h hrun
    simp only [Session.runAny, Option.some.injEq] at hrun
    subst hrun
    exact ⟨P, h⟩
  | cons c cs ih =>
    intro P t t1 h hrun
    simp only [Session.runAny] at hrun
    cases hstep : t.stepAny fuel c with
    | none => simp [hstep] at hrun
    | some t2 =>
      rw [hstep] at hrun
      obtain ⟨Q, hQ⟩ := h.after_call fuel c hstep
      exact ih Q t2 t1 hQ hrun

/-! ## The blocks tile the region -/

/-- In a tiling every block lies between the start and the end. -/
theorem IsTiling.bounds {m : Mem} :
    ∀ (bl : List Nat) (a e : Nat), IsTiling m a e bl →
      a ≤ e ∧ ∀ b ∈ bl, a ≤ b ∧ b + sizeofMCB + (m b).size ≤ e := by
  intro bl
  induction bl with
  | nil => intro a e h; exact ⟨Nat.le_of_eq h, by simp⟩
  | cons b bl ih =>
    intro a e h
    obtain ⟨h1, h2⟩ := h
    obtain ⟨h3, h4⟩ := ih _ _ h2
    subst h1
    refine ⟨by omega, ?_⟩
    intro x hx
    rcases List.mem_cons.mp hx with rfl | hx
    · exact ⟨Nat.le_refl _, h3⟩
    · have := h4 x hx
      exact ⟨by omega, this.2⟩

/-- A tiling only depends on the sizes of its blocks. -/
theorem IsTiling.congr_sizes {m m1 : Mem} :
    ∀ (bl : List Nat) (a e : Nat), (∀ b ∈ bl, (m1 b).size = (m b).size) →
      IsTiling m a e bl → IsTiling m1 a e bl := by
  intro bl
  induction bl with
  | nil => intro a e _ h; exact h
  | cons b bl ih =>
    intro a e hm h
    obtain ⟨h1, h2⟩ := h
    refine ⟨h1, ?_⟩
    rw [hm b (by simp)]
    exact ih _ _ (fun x hx => hm x (by simp [hx])) h2

/-- No block of a tiling starts inside another block. -/
theorem IsTiling.apart {m : Mem} {c : Nat} :
    ∀ (bl : List Nat) (a e : Nat), IsTiling m a e bl → c ∈ bl →
      ∀ x ∈ bl, x ≤ c ∨ c + sizeofMCB + (m c).size ≤ x := by
  intro bl
  induction bl with
  | nil => intro a e _ hc; simp at hc
  | cons b bl ih =>
    intro a e h hc x hx
    obtain ⟨h1, h2⟩ := h
    have hb := (IsTiling.bounds bl _ _ h2).2
    rcases List.mem_cons.mp hc with hcb | hcm
    · rcases List.mem_cons.mp hx with hxb | hxm
      · left; omega
      · right; rw [hcb]; exact (hb x hxm).1
    · rcases List.mem_cons.mp hx with hxb | hxm
      · have := (hb c hcm).1
        left; omega
      · exact ih _ _ h2 hcm x hxm

/-- The blocks of a tiling add up to the bytes they tile. -/
theorem IsTiling.blockSum_eq {m : Mem} :
    ∀ (bl : List Nat) (a e : Nat), IsTiling m a e bl → a + blockSum m bl = e := by
  intro bl
  induction bl with
  | nil => intro a e h; simpa [blockSum] using h
  | cons b bl ih =>
    intro a e h
    obtain ⟨h1, h2⟩ := h
    have := ih _ _ h2
    simp only [blockSum, List.map_cons, List.sum_cons] at this ⊢
    omega

/-- The tiling of a range is unique. -/
theorem IsTiling.unique {m : Mem} :
    ∀ (bl bl2 : List Nat) (a e : Nat), IsTiling m a e bl → IsTiling m a e bl2 → bl = bl2 := by
  intro bl
  induction bl with
  | nil =>
    intro bl2 a e h h2
    cases bl2 with
    | nil => rfl
    | cons b bl2 =>
      have h3 : a = e := h
      have := (IsTiling.bounds bl2 _ _ h2.2).1
      have h4 := h2.1
      simp only [sizeofMCB] at this
      omega
  | cons b bl ih =>
    intro bl2 a e h h2
    cases bl2 with
    | nil =>
      have h3 : a = e := h2
      have := (IsTiling.bounds bl _ _ h.2).1
      have h4 := h.1
      simp only [sizeofMCB] at this
      omega
    | cons b2 bl2 =>
      have hb : b = b2 := h.1.symm.trans h2.1
      subst hb
      rw [ih bl2 _ _ h.2 h2.2]

/-- A split replaces one block of the tiling by two. -/
theorem IsTiling.split {m m1 : Mem} {c asz : Nat} (hbig : asz + 32 ≤ (m c).size)
    (hsz : ∀ x, (m1 x).size = if x = c then asz
      else if x = c + 32 + asz then (m c).size - asz - 32 else (m x).size) :
    ∀ (bl : List Nat) (a e : Nat), IsTiling m a e bl → c ∈ bl →
      ∃ bl1, IsTiling m1 a e bl1 ∧ (∀ x, x ∈ bl1 ↔ x ∈ bl ∨ x = c + 32 + asz) ∧
        bl1.length = bl.length + 1 := by
  intro bl
  induction bl with
  | nil => intro a e _ hc; simp at hc
  | cons b bl ih =>
    intro a e h hc
    obtain ⟨h1, h2⟩ := h
    have hb := (IsTiling.bounds bl _ _ h2).2
    by_cases hbc : b = c
    · subst hbc
      have e1 : (m1 b).size = asz := by rw [hsz]; simp
      have e2 : (m1 (b + 32 + asz)).size = (m b).size - asz - 32 := by
        rw [hsz]
        have : b + 32 + asz ≠ b := by omega
        simp [this]
      refine ⟨b :: (b + 32 + asz) :: bl, ⟨h1, by simp [sizeofMCB, e1], ?_⟩, ?_, by simp⟩
      · have e3 : b + 32 + asz + sizeofMCB + (m1 (b + 32 + asz)).size
            = b + sizeofMCB + (m b).size := by
          rw [e2]; simp only [sizeofMCB]; omega
        rw [e3]
        refine IsTiling.congr_sizes bl _ _ (fun x hx => ?_) h2
        have := (hb x hx).1
        simp only [sizeofMCB] at this
        rw [hsz]
        have x1 : x ≠ b := by omega
        have x2 : x ≠ b + 32 + asz := by omega
        simp [x1, x2]
      · intro x
        simp only [List.mem_cons]
        tauto
    · have hcm : c ∈ bl := (List.mem_cons.mp hc).resolve_left (Ne.symm hbc)
      obtain ⟨bl1, ht, hmem, hlen⟩ := ih _ _ h2 hcm
      have hcb := (hb c hcm).1
      simp only [sizeofMCB] at hcb
      have e1 : (m1 b).size = (m b).size := by
        rw [hsz]
        have x2 : b ≠ c + 32 + asz := by omega
        simp [hbc, x2]
      refine ⟨b :: bl1, ⟨h1, by rw [e1]; exact ht⟩, ?_, by simp [hlen]⟩
      intro x
      simp only [List.mem_cons, hmem]
      tauto

/-- A closed set stays closed under every description with the same members. -/
theorem Closed.congr_set {P Q : Nat → Prop} {s : Allocator} (h : Closed P s)
    (hPQ : ∀ a, Q a ↔ P a) : Closed Q s :=
  ⟨h.freeHead.imp id (hPQ _).mpr, h.usedHead.imp id (hPQ _).mpr, h.links.of_iff hPQ⟩

/-- The state right after construction is tiled by its only block. -/
theorem Tiled.at_construct (m0 : Mem) (base S : Nat) (h32 : 32 ≤ S) (hS64 : S < 2 ^ 64) :
    Tiled base S (construct m0 base S) [base] := by
  norm_num at hS64
  have hsz : ((construct m0 base S).mem base).size = S - 32 := by
    rw [construct_size_head, sizeofMCB, sub64_of_le _ _ h32 hS64]
  refine ⟨rfl, rfl, ⟨rfl, ?_⟩, ⟨Or.inr (by simp [construct]), Or.inl rfl, ?_⟩⟩
  · show base + sizeofMCB + ((construct m0 base S).mem base).size = base + S
    rw [hsz]; simp only [sizeofMCB]; omega
  · intro a ha
    have ha1 : a = base := by simpa using ha
    subst ha1
    simp [construct]

/-- The method `Deallocate` on a block of the tiling changes neither the tiling
nor any size. -/
theorem Tiled.after_free {base S : Nat} {s : Allocator} {bl : List Nat}
    (h : Tiled base S s bl) (p : Nat) (hp : p = 0 ∨ p - sizeofMCB ∈ bl) :
    Tiled base S (Deallocate s p) bl :=
  ⟨by rw [Deallocate_addr]; exact h.addr_eq, by rw [Deallocate_regionSize]; exact h.size_eq,
    IsTiling.congr_sizes bl _ _ (fun b _ => Deallocate_size s p b) h.tiling,
    h.closed.after_deallocate p hp⟩

/-- One `Allocate` on a tiled state of a region that ends at most 32 bytes
below `2 ^ 64`: the state stays tiled, no block disappears, no block grows, and
a new block is not larger than the block it was split from. -/
theorem Tiled.after_allocate {base S : Nat} {s : Allocator} {bl : List Nat}
    (h : Tiled base S s bl) (hS : S ≤ 2 ^ 64 - 32) (hend : base + S ≤ 2 ^ 64)
    (fuel n p : Nat) (s1 : Allocator) (hA : Allocate fuel s n = some (p, s1)) :
    ∃ bl1, Tiled base S s1 bl1 ∧ (∀ x ∈ bl, x ∈ bl1) ∧ bl.length ≤ bl1.length ∧
      (∀ x ∈ bl, (s1.mem x).size ≤ (s.mem x).size) ∧
      (∀ x ∈ bl1, ∃ b ∈ bl, (s1.mem x).size ≤ (s.mem b).size) ∧
      (p = 0 ∨ p - sizeofMCB ∈ bl1) := by
  unfold Allocate at hA
  cases hf : findFit s.mem (alloc_size n) fuel s.freeList with
  | none => simp [hf] at hA
  | some c =>
    by_cases hc : c = 0
    · simp only [hf, hc, if_true, Option.some.injEq, Prod.mk.injEq] at hA
      obtain ⟨rfl, rfl⟩ := hA
      exact ⟨bl, h, fun x hx => hx, Nat.le_refl _, fun x _ => Nat.le_refl _,
        fun x hx => ⟨x, hx, Nat.le_refl _⟩, Or.inl rfl⟩
    · simp only [hf, hc, if_false, Option.some.injEq] at hA
      have hcm : c ∈ bl :=
        (findFit_closed h.closed.links _ _ _ _ h.closed.freeHead hf).resolve_left hc
      have hfit : alloc_size n ≤ (s.mem c).size := findFit_fits _ _ _ _ _ hf hc
      obtain ⟨hlo, hhi⟩ := (IsTiling.bounds bl _ _ h.tiling).2 c hcm
      simp only [sizeofMCB] at hhi
      have hp : p = c + sizeofMCB ∧ s1 = (takeBlock s (alloc_size n) c).2 := by
        have e1 := congrArg Prod.fst hA
        have e2 := congrArg Prod.snd hA
        exact ⟨e1.symm, e2.symm⟩
      obtain ⟨rfl, rfl⟩ := hp
      have hcl := h.closed.after_takeBlock (alloc_size n) c hcm
      cases hsc : splitCond s (alloc_size n) c with
      | false =>
        have hsz : ∀ x, ((takeBlock s (alloc_size n) c).2.mem x).size = (s.mem x).size := by
          intro x; rw [takeBlock_size]; simp [hsc]
        refine ⟨bl, ⟨h.addr_eq, h.size_eq, ?_, ?_⟩, fun x hx => hx, Nat.le_refl _,
          fun x _ => Nat.le_of_eq (hsz x), fun x hx => ⟨x, hx, Nat.le_of_eq (hsz x)⟩,
          Or.inr (by simpa using hcm)⟩
        · exact IsTiling.congr_sizes bl _ _ (fun b _ => hsz b) h.tiling
        · exact hcl.congr_set (fun a => by rw [hsc]; simp)
      | true =>
        obtain ⟨hbig, hq⟩ := splitCond_spec h.addr_eq h.size_eq hS hend hlo hhi hfit hsc
        have hz64 : (s.mem c).size < 18446744073709551616 := by
          norm_num at hend; omega
        have hsz : ∀ x, ((takeBlock s (alloc_size n) c).2.mem x).size =
            if x = c then alloc_size n
            else if x = c + 32 + alloc_size n then (s.mem c).size - alloc_size n - 32
            else (s.mem x).size := by
          intro x
          rw [takeBlock_size]
          simp only [hsc, if_true, splitBlock_size, hq]
          rw [sub64_of_le _ _ hfit hz64, sizeofMCB, sub64_of_le _ _ (by omega) (by omega)]
        obtain ⟨bl1, ht, hmem, hlen⟩ := IsTiling.split (by omega) hsz bl _ _ h.tiling hcm
        have hapart := IsTiling.apart bl _ _ h.tiling hcm
        have hqnot : c + 32 + alloc_size n ∉ bl := by
          intro hm
          have := hapart _ hm
          simp only [sizeofMCB] at this
          omega
        refine ⟨bl1, ⟨h.addr_eq, h.size_eq, ht, ?_⟩, fun x hx => (hmem x).mpr (Or.inl hx),
          by omega, ?_, ?_, Or.inr ?_⟩
        · refine hcl.congr_set (fun a => ?_)
          rw [hmem, hq]; simp [hsc]
        · intro x hx
          rw [hsz]
          have hxq : x ≠ c + 32 + alloc_size n := fun e => hqnot (e ▸ hx)
          split_ifs with h1
          · rw [h1]; exact hfit
          · exact Nat.le_refl _
        · intro x hx
          rw [hsz]
          rcases (hmem x).mp hx with hx | hx
          · have hxq : x ≠ c + 32 + alloc_size n := fun e => hqnot (e ▸ hx)
            split_ifs with h1
            · exact ⟨c, hcm, hfit⟩
            · exact ⟨x, hx, Nat.le_refl _⟩
          · have hxc : x ≠ c := by omega
            rw [if_neg hxc, if_pos hx]
            exact ⟨c, hcm, by omega⟩
        · simp only [Nat.add_sub_cancel]
          exact (hmem c).mpr (Or.inl hcm)

/-- The session right after construction is placed on its only block. -/
theorem Placed.initially (m0 : Mem) (base S : Nat) (h32 : 32 ≤ S) (hS64 : S < 2 ^ 64) :
    Placed base S (Session.startOn m0 base S) [base] :=
  ⟨Tiled.at_construct m0 base S h32 hS64, by intro p hp; simp [Session.startOn] at hp⟩

/-- One call on a placed session: the blocks of the region only get more
numerous and none of them grows. -/
theorem Placed.preserved_step {base S : Nat} {t t1 : Session} {bl : List Nat}
    (h : Placed base S t bl) (hS : S ≤ 2 ^ 64 - 32) (hend : base + S ≤ 2 ^ 64)
    (fuel : Nat) (c : Call) (hstep : t.stepAny fuel c = some t1) :
    ∃ bl1, Placed base S t1 bl1 ∧ (∀ x ∈ bl, x ∈ bl1) ∧ bl.length ≤ bl1.length ∧
      (∀ x ∈ bl, (t1.state.mem x).size ≤ (t.state.mem x).size) ∧
      (∀ x ∈ bl1, ∃ b ∈ bl, (t1.state.mem x).size ≤ (t.state.mem b).size) ∧
      (∀ p, c = Call.deallocate p →
        bl1 = bl ∧ ∀ x, (t1.state.mem x).size = (t.state.mem x).size) := by
  cases c with
  | allocate n =>
    simp only [Session.stepAny] at hstep
    cases hA : Allocate fuel t.state n with
    | none => simp [hA] at hstep
    | some r =>
      obtain ⟨p, s1⟩ := r
      simp only [hA, Option.some.injEq] at hstep
      subst hstep
      obtain ⟨bl1, ht, hsub, hlen, hle, hmax, hp⟩ :=
        h.tiled.after_allocate hS hend fuel n p s1 hA
      refine ⟨bl1, ⟨ht, ?_⟩, hsub, hlen, hle, hmax, fun q hq => by cases hq⟩
      intro q hq
      simp only [List.mem_cons] at hq
      rcases hq with rfl | hq
      · exact hp
      · exact (h.returned q hq).imp id (hsub _)
  | deallocate p =>
    simp only [Session.stepAny] at hstep
    by_cases hp : p = 0 ∨ p ∈ t.returned
    · simp only [hp, if_true, Option.some.injEq] at hstep
      subst hstep
      have hp2 : p = 0 ∨ p - sizeofMCB ∈ bl := by
        rcases hp with hp | hp
        · exact Or.inl hp
        · exact h.returned p hp
      refine ⟨bl, ⟨h.tiled.after_free p hp2, h.returned⟩, fun x hx => hx, Nat.le_refl _,
        fun x _ => Nat.le_of_eq (Deallocate_size _ _ _),
        fun x hx => ⟨x, hx, Nat.le_of_eq (Deallocate_size _ _ _)⟩,
        fun q _ => ⟨rfl, fun x => Deallocate_size _ _ _⟩⟩
    · simp [hp] at hstep

/-- Every sequence of calls keeps the session placed on a tiling. -/
theorem Placed.preserved_run {base S : Nat} (hS : S ≤ 2 ^ 64 - 32) (hend : base + S ≤ 2 ^ 64)
    (fuel : Nat) :
    ∀ (cs : List Call) (t t1 : Session) (bl : List Nat), Placed base S t bl →
      t.runAny fuel cs = some t1 → ∃ bl1, Placed base S t1 bl1 := by
  intro cs
  induction cs with
  | nil =>
    intro t t1 bl h hrun
    simp only [Session.runAny, Option.some.injEq] at hrun
    subst hrun
    exact ⟨bl, h⟩
  | cons c cs ih =>
    intro t t1 bl h hrun
    simp only [Session.runAny] at hrun
    cases hstep : t.stepAny fuel c with
    | none => simp [hstep] at hrun
    | some t2 =>
      rw [hstep] at hrun
      obtain ⟨bl2, h2, -⟩ := h.preserved_step hS hend fuel c hstep
      exact ih t2 t1 bl2 h2 hrun

/-- One valid call is a call in the wider sense. -/
theorem Session.step_stepAny (fuel : Nat) (t t1 : Session) (c : Call)
    (hlive : ∀ p ∈ t.live, p ∈ t.returned ∧ p ≠ 0) (hstep : t.step fuel c = some t1) :
    t.stepAny fuel c = some t1 := by
  have h1 : t.run fuel [c] = some t1 := by simp [Session.run, hstep]
  have h2 := (Session.run_runAny fuel [c] t t1 hlive h1).1
  simp only [Session.runAny] at h2
  cases h3 : t.stepAny fuel c with
  | none => simp [h3] at h2
  | some t2 => simpa [h3] using h2

/-- In every state reached by valid calls on a region that ends at most 32
bytes below `2 ^ 64`, header plus usable size add up to the region size over
the blocks that tile the region. -/
theorem reachable_blockSum (m0 : Mem) (base S fuel : Nat) (h32 : 32 < S)
    (hS : S ≤ 2 ^ 64 - 32) (hend : base + S ≤ 2 ^ 64) (cs : List Call) (t : Session)
    (hrun : (Session.startOn m0 base S).run fuel cs = some t) :
    ∃ bl, IsTiling t.state.mem base (base + S) bl ∧ blockSum t.state.mem bl = S := by
  have hS64 : S < 2 ^ 64 := by norm_num at hS ⊢; omega
  obtain ⟨hany, -⟩ := Session.run_runAny fuel cs _ t
    (by intro p hp; simp [Session.startOn] at hp) hrun
  obtain ⟨bl, hbl⟩ := Placed.preserved_run hS hend fuel cs _ t _
    (Placed.initially m0 base S (by omega) hS64) hany
  refine ⟨bl, hbl.tiled.tiling, ?_⟩
  have := IsTiling.blockSum_eq bl _ _ hbl.tiled.tiling
  omega

/-! ## The split inside a well-formed free list -/

/-- A doubly linked chain is a chain. -/
theorem IsDChain.toChain {m : Mem} :
    ∀ (l : List Nat) (prev head : Nat), IsDChain m prev head l → IsChain m head l := by
  intro l
  induction l with
  | nil => intro prev head h; exact h
  | cons a l ih => intro prev head h; exact ⟨h.1, h.2.1, ih _ _ h.2.2.2⟩

/-- Putting the block `R` in the place of the block `B` of a doubly linked
chain: the chain of `next` links is the old one with `R` for `B` in every
memory in which the `next` of the block before `B` has been redirected to `R`
and the `next` of `R` is the old `next` of `B`. -/
theorem IsDChain.replace {m m1 : Mem} {B R : Nat} {post : List Nat} (hR0 : R ≠ 0)
    (hRn : (m1 R).next = (m B).next) :
    ∀ (pre : List Nat) (prev head : Nat), IsDChain m prev head (pre ++ B :: post) →
      (pre ++ B :: post).Nodup → prev ∉ pre ++ B :: post →
      (∀ a ∈ pre ++ post, (m1 a).next = if a = (m B).prev then R else (m a).next) →
      IsChain m1 (if pre = [] then R else head) (pre ++ R :: post) := by
  intro pre
  induction pre with
  | nil =>
    intro prev head h hnd hprev hn
    obtain ⟨_, _, hBp, hrest⟩ := h
    simp only [List.nil_append, List.mem_cons, not_or] at hprev hn
    simp only [if_true, List.nil_append]
    refine ⟨rfl, hR0, ?_⟩
    rw [hRn]
    refine IsChain.congr_next post _ (fun a ha => ?_) (IsDChain.toChain post _ _ hrest)
    have hap : a ≠ prev := fun e => hprev.2 (e ▸ ha)
    rw [hn a ha, hBp]; simp [hap]
  | cons a pre ih =>
    intro prev head h hnd hprev hn
    obtain ⟨ha, ha0, _, hrest⟩ := h
    have hnd2 : (pre ++ B :: post).Nodup := (List.nodup_cons.mp hnd).2
    have hanot : a ∉ pre ++ B :: post := (List.nodup_cons.mp hnd).1
    have hch := ih a (m a).next hrest hnd2 hanot
      (fun b hb => hn b (by
        rcases List.mem_append.mp hb with hb | hb
        · simp [hb]
        · simp [hb]))
    obtain ⟨hnil, hcons⟩ := IsDChain.prev_of_mem pre a (m a).next hrest
    simp only [List.cons_append, reduceCtorEq, if_false]
    refine ⟨ha, ha0, ?_⟩
    have e : (m1 a).next = if pre = [] then R else (m a).next := by
      rw [hn a (by simp)]
      by_cases hpre : pre = []
      · simp [hpre, hnil hpre]
      · have : a ≠ (m B).prev := fun e => hanot (by
          have := hcons hpre
          rw [← e] at this
          simp [this])
        simp [hpre, this]
    rw [e]
    exact hch

/-- The state after `Allocate` has split the block `B` and handed it out, when
the new block `R` is neither null nor `B`. -/
theorem takeBlock_split_any {s : Allocator} {asz B R : Nat}
    (hsc : splitCond s asz B = true) (hq : (B + sizeofMCB + asz) % wordMod = R)
    (hRB : R ≠ B) (hR0 : R ≠ 0) :
    (takeBlock s asz B).2 =
      { s with
        mem := setNext
          (if s.usedList ≠ 0 then
            setPrev (setPrev
              (if (s.mem B).prev ≠ 0 then setNext (splitBlock s.mem asz B) (s.mem B).prev R
               else splitBlock s.mem asz B) R (s.mem B).prev) s.usedList B
           else setPrev
              (if (s.mem B).prev ≠ 0 then setNext (splitBlock s.mem asz B) (s.mem B).prev R
               else splitBlock s.mem asz B) R (s.mem B).prev) B s.usedList,
        freeList := if B = s.freeList then R else s.freeList,
        usedList := B } := by
  have e1 : (splitBlock s.mem asz B B).prev = (s.mem B).prev := by
    simp [splitBlock_apply hq hRB]
  have e2 : (splitBlock s.mem asz B B).next = R := by
    simp [splitBlock_apply hq hRB]
  have e3 : ((if (s.mem B).prev ≠ 0 then setNext (splitBlock s.mem asz B) (s.mem B).prev R
      else splitBlock s.mem asz B) B).next = R := by
    split_ifs <;> simp [e2]
  have e4 : ((if (s.mem B).prev ≠ 0 then setNext (splitBlock s.mem asz B) (s.mem B).prev R
      else splitBlock s.mem asz B) B).prev = (s.mem B).prev := by
    split_ifs <;> simp [e1]
  have e5 : ((setPrev (if (s.mem B).prev ≠ 0 then
        setNext (splitBlock s.mem asz B) (s.mem B).prev R
      else splitBlock s.mem asz B) R (s.mem B).prev) B).next = R := by
    rw [setPrev_next, e3]
  simp only [takeBlock, hsc, if_true, e1, e2, e3, e4, e5, hR0, ne_eq, not_false_eq_true]

theorem setNext_of_ne (m : Mem) (p v a : Nat) (h : a ≠ p) : setNext m p v a = m a := by
  simp [setNext, h]

theorem setPrev_of_ne (m : Mem) (p v a : Nat) (h : a ≠ p) : setPrev m p v a = m a := by
  simp [setPrev, h]

/-- The state after `Allocate` has handed out the block `B` without a split:
only `next` and `prev` fields of `B`, of its two neighbours and of the head of
the used list are stored. -/
theorem takeBlock_nosplit_frame {s : Allocator} {asz B : Nat}
    (hsc : splitCond s asz B = false) (a : Nat) (h1 : a ≠ B) (h2 : a ≠ (s.mem B).prev)
    (h3 : a ≠ (s.mem B).next) (h4 : a ≠ s.usedList) :
    (takeBlock s asz B).2.mem a = s.mem a := by
  have e1 : ((if (s.mem B).prev ≠ 0 then setNext s.mem (s.mem B).prev (s.mem B).next
      else s.mem) B).next = (s.mem B).next := by
    split_ifs <;> simp
  have e2 : ((if (s.mem B).prev ≠ 0 then setNext s.mem (s.mem B).prev (s.mem B).next
      else s.mem) B).prev = (s.mem B).prev := by
    split_ifs <;> simp
  simp only [takeBlock, hsc, Bool.false_eq_true, if_false, e1, e2]
  rw [setNext_of_ne _ _ _ _ h1]
  split_ifs <;>
    simp only [setPrev_of_ne _ _ _ _ h4, setPrev_of_ne _ _ _ _ h3, setNext_of_ne _ _ _ _ h2]

/-- In a doubly linked chain the `prev` of a block is the block before it. -/
theorem IsDChain.prev_eq_last {m : Mem} {x : Nat} {post : List Nat} :
    ∀ (pre : List Nat) (prev head : Nat), IsDChain m prev head (pre ++ x :: post) →
      (m x).prev = (pre.getLast?).getD prev := by
  intro pre
  induction pre with
  | nil => intro prev head h; simpa using h.2.2.1
  | cons a pre ih =>
    intro prev head h
    rw [ih a (m a).next h.2.2.2]
    cases pre with
    | nil => simp
    | cons b pre =>
      cases hl : (b :: pre).getLast? with
      | none => simp at hl
      | some y => simp [List.getLast?_cons_cons, hl]

/-- The control blocks laid end to end over the region are never merged.  For
every region in the 64-bit address space (`base + S` at most `2 ^ 64`) whose
size `S` is above 32 and at most `2 ^ 64 - 32`, every valid sequence of calls
after construction and every further valid call: the blocks that tile the
region before the call still tile it after the call, together with the blocks
the call has created; none of them has a larger usable size after the call;
every block after the call is at most as large as some block before it; and a
`Deallocate` leaves the tiling and all sizes as they are.  This is about the
headers in memory; whether a block is still on one of the two lists is another
matter. -/
theorem tiling_blocks_never_merge (m0 : Mem) (base S fuel : Nat) (h32 : 32 < S)
    (hS : S ≤ 2 ^ 64 - 32) (hend : base + S ≤ 2 ^ 64) (cs : List Call) (c : Call)
    (t t1 : Session) (hrun : (Session.startOn m0 base S).run fuel cs = some t)
    (hstep : t.step fuel c = some t1) :
    ∃ bl bl1, IsTiling t.state.mem base (base + S) bl ∧
      IsTiling t1.state.mem base (base + S) bl1 ∧
      (∀ x ∈ bl, x ∈ bl1) ∧ bl.length ≤ bl1.length ∧
      (∀ x ∈ bl, (t1.state.mem x).size ≤ (t.state.mem x).size) ∧
      (∀ x ∈ bl1, ∃ b ∈ bl, (t1.state.mem x).size ≤ (t.state.mem b).size) ∧
      (∀ p, c = Call.deallocate p →
        bl1 = bl ∧ ∀ x, (t1.state.mem x).size = (t.state.mem x).size) := by
  have hS64 : S < 2 ^ 64 := by norm_num at hS ⊢; omega
  obtain ⟨hany, hlive⟩ := Session.run_runAny fuel cs _ t
    (by intro p hp; simp [Session.startOn] at hp) hrun
  obtain ⟨bl, hbl⟩ := Placed.preserved_run hS hend fuel cs _ t _
    (Placed.initially m0 base S (by omega) hS64) hany
  obtain ⟨bl1, hbl1, h1, h2, h3, h4, h5⟩ :=
    hbl.preserved_step hS hend fuel c (Session.step_stepAny fuel t t1 c hlive hstep)
  exact ⟨bl, bl1, hbl.tiled.tiling, hbl1.tiled.tiling, h1, h2, h3, h4, h5⟩

/-- What the split does to the free list.  For every state whose free list is
a well-formed doubly linked chain `pre ++ B :: post` of distinct blocks, and
every request whose first-fit block is `B` (every block of `pre` is too small,
`B` is not).  When `B` has at least `alloc_size + 2 * 32` usable bytes, the
split address `R`, which is `payload(B) + alloc_size` in 64-bit arithmetic,
passes the bounds check of line 62, and `R` is a new block (not null, not on
the free list, not the head of the used list): `Allocate` returns the payload
of `B`, `B` has exactly `alloc_size` usable bytes, `R` has the old size of `B`
minus `alloc_size` minus 32, following `next` from `freeList` gives
`pre ++ R :: post`, the `prev` of `R` is the former predecessor of `B` (null
if `B` was the head), the `next` of `R` is the former successor of `B`, and
`freeList` is `R` if `B` was the head.  Nothing is said about the `prev` of the
former successor, which the code does not update.  When `B` has less than
`alloc_size + 2 * 32` usable bytes and that sum does not overflow: no size
changes, and nothing is stored outside `B`, its two neighbours and the head of
the used list. -/
theorem split_takes_place_of_block (s : Allocator) (n fuel : Nat) (pre post : List Nat)
    (B : Nat) (hchain : IsDChain s.mem 0 s.freeList (pre ++ B :: post))
    (hnd : (pre ++ B :: post).Nodup) (hfuel : (pre ++ B :: post).length ≤ fuel)
    (hpre : ∀ a ∈ pre, (s.mem a).size < alloc_size n)
    (hfit : alloc_size n ≤ (s.mem B).size) :
    (∀ R, alloc_size n + 2 * 32 ≤ (s.mem B).size → (s.mem B).size < 2 ^ 64 →
      (B + sizeofMCB + alloc_size n) % wordMod = R → R < (s.addr + s.size) % wordMod →
      R ≠ 0 → R ∉ pre ++ B :: post → R ≠ s.usedList →
      ∃ s1, Allocate fuel s n = some (B + sizeofMCB, s1) ∧
        (s1.mem B).size = alloc_size n ∧
        (s1.mem R).size = (s.mem B).size - alloc_size n - 32 ∧
        IsChain s1.mem s1.freeList (pre ++ R :: post) ∧
        (s1.mem R).prev = (pre.getLast?).getD 0 ∧
        (s1.mem R).next = post.headD 0 ∧
        (pre = [] → s1.freeList = R)) ∧
    ((s.mem B).size < alloc_size n + 2 * 32 → alloc_size n + 2 * 32 < 2 ^ 64 →
      ∃ s1, Allocate fuel s n = some (B + sizeofMCB, s1) ∧
        (∀ a, (s1.mem a).size = (s.mem a).size) ∧
        ∀ a, a ≠ B → a ≠ (s.mem B).prev → a ≠ (s.mem B).next → a ≠ s.usedList →
          s1.mem a = s.mem a) := by
  -- the search stops at `B`
  obtain ⟨hpost, hB0⟩ := IsDChain.next_of_mem pre 0 s.freeList hchain
  have hfind : findFit s.mem (alloc_size n) fuel s.freeList = some B := by
    rcases findFit_chain s.mem (alloc_size n) _ s.freeList fuel
      (IsDChain.toChain _ _ _ hchain) hfuel with ⟨_, hall⟩ | ⟨pre2, b, post2, hl, hpre2, hb, _, hf⟩
    · have := hall B (by simp)
      omega
    · have hbB : b = B := by
        by_contra hne
        have hbmem : b ∈ pre ++ B :: post := by rw [hl]; simp
        rcases List.mem_append.mp hbmem with h1 | h1
        · have := hpre b h1; omega
        · have hbpost : b ∈ post := (List.mem_cons.mp h1).resolve_left hne
          -- then `B` comes before `b`, among the blocks that are too small
          have hBmem : B ∈ pre2 ++ b :: post2 := by rw [← hl]; simp
          rcases List.mem_append.mp hBmem with h2 | h2
          · have := hpre2 B h2; omega
          · have hBpost2 : B ∈ post2 := (List.mem_cons.mp h2).resolve_left (Ne.symm hne)
            -- `b` occurs after `B` and `B` occurs after `b`: the list repeats a block
            have hnd2 : (pre2 ++ b :: post2).Nodup := hl ▸ hnd
            have e1 : pre ++ B :: post = pre2 ++ b :: post2 := hl
            obtain ⟨u, v, huv⟩ := List.append_of_mem hbpost
            obtain ⟨u2, v2, huv2⟩ := List.append_of_mem hBpost2
            have c1 : (pre ++ B :: post).count B = 1 :=
              List.count_eq_one_of_mem hnd (by simp)
            have c2 : (pre ++ B :: post).count b = 1 :=
              List.count_eq_one_of_mem hnd hbmem
            -- compare the positions through `takeWhile`-free counting on prefixes
            have p1 : B ∉ pre := fun h => by
              have := List.nodup_append.mp hnd
              exact this.2.2 h (by simp)
            have p2 : b ∉ pre2 := fun h => by
              have := List.nodup_append.mp hnd2
              exact this.2.2 h (by simp)
            have q1 : b ∉ pre := fun h => by have := hpre b h; omega
            have q2 : B ∉ pre2 := fun h => by have := hpre2 B h; omega
            -- the first of `B`, `b` in the list is at the end of both prefixes
            have := List.append_eq_append_iff.mp e1
            rcases this with ⟨a', ha1, ha2⟩ | ⟨c', hc1, hc2⟩
            · cases a' with
              | nil => simp at ha2; exact hne ha2.1.symm
              | cons x a' =>
                simp only [List.cons_append, List.cons.injEq] at ha2
                exact q2 (by rw [ha1, ← ha2.1]; simp)
            · cases c' with
              | nil => simp at hc2; exact hne hc2.1
              | cons x c' =>
                simp only [List.cons_append, List.cons.injEq] at hc2
                exact q1 (by rw [hc1, ← hc2.1]; simp)
      rw [hf, hbB]
  have hAlloc : Allocate fuel s n = some (B + sizeofMCB, (takeBlock s (alloc_size n) B).2) := by
    simp [Allocate, hfind, hB0, takeBlock]
  have hprev : (s.mem B).prev = (pre.getLast?).getD 0 := IsDChain.prev_eq_last pre 0 _ hchain
  have hnext : (s.mem B).next = post.headD 0 := hpost.head_eq
  obtain ⟨hp_nil, hp_cons⟩ := IsDChain.prev_of_mem pre 0 s.freeList hchain
  have hBnot : B ∉ pre ++ post := by
    intro hm
    exact (List.nodup_cons.mp (List.nodup_middle.mp hnd)).1 hm
  have hpB : (s.mem B).prev ≠ B := by
    intro e
    by_cases hpre0 : pre = []
    · exact hB0 (e.symm.trans (hp_nil hpre0))
    · exact hBnot (by rw [← e]; simp [hp_cons hpre0])
  have hhead : B = s.freeList ↔ pre = [] := by
    constructor
    · intro e
      by_contra hpre0
      cases pre with
      | nil => exact hpre0 rfl
      | cons a l =>
        have : s.freeList = a := hchain.1
        apply hBnot
        rw [e, this]; simp
    · intro hpre0
      subst hpre0
      exact hchain.1.symm
  refine ⟨?_, ?_⟩
  · intro R hbig hz64 hq hguard hR0 hRl hRu
    norm_num at hz64
    have hRB : R ≠ B := fun e => hRl (by rw [e]; simp)
    have hsc : splitCond s (alloc_size n) B = true := by
      simp only [splitCond, Bool.and_eq_true, decide_eq_true_eq, hq]
      refine ⟨?_, hguard⟩
      simp only [sizeofMCB, wordMod]
      norm_num
      omega
    refine ⟨_, hAlloc, ?_, ?_, ?_, ?_, ?_, ?_⟩
    · rw [takeBlock_size_self, if_pos hsc]
    · rw [takeBlock_size, if_pos hsc, splitBlock_size, if_neg hRB, hq, if_pos rfl,
        sub64_of_le _ _ hfit hz64, sizeofMCB, sub64_of_le _ _ (by omega) (by omega)]
    · rw [takeBlock_split_any hsc hq hRB hR0]
      have hRpre : R ≠ (s.mem B).prev := by
        intro e
        by_cases hpre0 : pre = []
        · exact hR0 (e.trans (hp_nil hpre0))
        · exact hRl (by rw [e]; simp [hp_cons hpre0])
      have hmain := @IsDChain.replace s.mem
        (setNext
          (if s.usedList ≠ 0 then
            setPrev (setPrev
              (if (s.mem B).prev ≠ 0 then
                setNext (splitBlock s.mem (alloc_size n) B) (s.mem B).prev R
               else splitBlock s.mem (alloc_size n) B) R (s.mem B).prev) s.usedList B
           else setPrev
              (if (s.mem B).prev ≠ 0 then
                setNext (splitBlock s.mem (alloc_size n) B) (s.mem B).prev R
               else splitBlock s.mem (alloc_size n) B) R (s.mem B).prev) B s.usedList)
        B R post
        hR0 (by
          split_ifs <;> simp [hRB, hRpre, splitBlock_apply hq hRB])
        pre 0 s.freeList hchain hnd
        (fun hm => IsDChain.block_ne_zero _ _ _ hchain 0 hm rfl) (by
          intro a ha
          have haB : a ≠ B := fun e => hBnot (e ▸ ha)
          have haR : a ≠ R := fun e => hRl (by
            rw [← e]
            rcases List.mem_append.mp ha with h1 | h1
            · simp [h1]
            · simp [h1])
          have ha0 : a ≠ 0 := IsDChain.block_ne_zero _ _ _ hchain a (by
            rcases List.mem_append.mp ha with h1 | h1
            · simp [h1]
            · simp [h1])
          by_cases hap : a = (s.mem B).prev
          · have hp0 : (s.mem B).prev ≠ 0 := hap ▸ ha0
            rw [if_pos hap, setNext_next, if_neg haB]
            split_ifs <;> simp [hap, hp0]
          · rw [if_neg hap, setNext_next, if_neg haB]
            split_ifs <;> simp [haB, hap, haR, splitBlock_apply hq hRB])
      by_cases hpre0 : pre = []
      · simpa [hhead.mpr hpre0, hpre0] using hmain
      · have : B ≠ s.freeList := fun e => hpre0 (hhead.mp e)
        simpa [this, hpre0] using hmain
    · rw [takeBlock_split_any hsc hq hRB hR0, ← hprev]
      split_ifs <;> simp [hRB, hRu]
    · rw [takeBlock_split_any hsc hq hRB hR0, ← hnext]
      have hRpre : R ≠ (s.mem B).prev := by
        intro e
        by_cases hpre0 : pre = []
        · exact hR0 (e.trans (hp_nil hpre0))
        · exact hRl (by rw [e]; simp [hp_cons hpre0])
      split_ifs <;> simp [hRB, hRpre, splitBlock_apply hq hRB]
    · intro hpre0
      rw [takeBlock_split_any hsc hq hRB hR0]
      simp [hhead.mpr hpre0]
  · intro hsmall hno
    norm_num at hno
    have hsc : splitCond s (alloc_size n) B = false := by
      simp only [splitCond, Bool.and_eq_false_imp, decide_eq_true_eq, decide_eq_false_iff_not]
      intro h1
      exfalso
      simp only [sizeofMCB, wordMod] at h1
      norm_num at h1
      omega
    refine ⟨_, hAlloc, ?_, ?_⟩
    · intro a
      rw [takeBlock_size, hsc]; simp
    · intro a h1 h2 h3 h4
      exact takeBlock_nosplit_frame hsc a h1 h2 h3 h4

/-- The split at a concrete input: the free list 4096 (64 bytes), 4192 (992
bytes), 5216 (896 bytes).  For a request of 480 bytes the first fit is 4192,
it is split at 4704, and 4704 stands between 4096 and 5216.  For a request of
64 bytes the first fit is 4096, which is too small to be split. -/
theorem split_takes_place_of_block_at_sample :
    (IsDChain sampleState3.mem 0 sampleState3.freeList ([4096] ++ 4192 :: [5216]) ∧
    ∃ s1, Allocate 3 sampleState3 480 = some (4192 + sizeofMCB, s1) ∧
      (s1.mem 4192).size = alloc_size 480 ∧
      (s1.mem 4704).size = (sampleState3.mem 4192).size - alloc_size 480 - 32 ∧
      IsChain s1.mem s1.freeList ([4096] ++ 4704 :: [5216]) ∧
      (s1.mem 4704).prev = (([4096] : List Nat).getLast?).getD 0 ∧
      (s1.mem 4704).next = ([5216] : List Nat).headD 0 ∧
      (([4096] : List Nat) = [] → s1.freeList = 4704)) ∧
    (IsDChain sampleState3.mem 0 sampleState3.freeList ([] ++ 4096 :: [4192, 5216]) ∧
    ∃ s1, Allocate 3 sampleState3 64 = some (4096 + sizeofMCB, s1) ∧
      (∀ a, (s1.mem a).size = (sampleState3.mem a).size) ∧
      ∀ a, a ≠ 4096 → a ≠ (sampleState3.mem 4096).prev → a ≠ (sampleState3.mem 4096).next →
        a ≠ sampleState3.usedList → s1.mem a = sampleState3.mem a) :=
  ⟨⟨by decide,
    (split_takes_place_of_block sampleState3 480 3 [4096] [5216] 4192
      (by decide) (by decide) (by decide) (by decide) (by decide)).1 4704
      (by decide) (by decide) (by decide) (by decide) (by decide) (by decide) (by decide)⟩,
   ⟨by decide,
    (split_takes_place_of_block sampleState3 64 3 [] [4192, 5216] 4096
      (by decide) (by decide) (by decide) (by decide) (by decide)).2
      (by decide) (by decide)⟩⟩

/-! ## The claims -/

/-- C1: no two live blocks overlap.  This fails on the code.  Region of 1024
bytes at 4096: `Allocate(480)`, `Deallocate` of the result, `Allocate(224)`,
`Allocate(480)`, `Allocate(480)`.  Every call is allowed, and the last two
calls return the same pointer 4640 while the first of the two is still live:
the list of live pointers holds 4640 twice. -/
theorem C1_live_block_handed_out_again :
    ((Session.start 4096 1024).run 8
        [.allocate 480, .deallocate 4128, .allocate 224, .allocate 480, .allocate 480]).map
      (fun t => (t.returned, t.live))
      = some ([4640, 4640, 4128, 4128], [4640, 4640, 4128]) := by
  decide

/-- C2: every block is on exactly one of the two lists.  This fails on the
code.  Region of 1024 bytes at 4096: `Allocate(480)`, `Allocate(480)`,
`Deallocate` of the first result, `Allocate(224)`.  Afterwards the block at
4352, created by the last split, is reached from `freeList` and from
`usedList`. -/
theorem C2_block_on_both_lists :
    ((Session.start 4096 1024).run 8
        [.allocate 480, .allocate 480, .deallocate 4128, .allocate 224]).map
      (fun t => (walk t.state.mem 8 t.state.freeList, walk t.state.mem 8 t.state.usedList,
                 t.live))
      = some ([4352], [4096, 4608, 4352], [4128, 4640]) := by
  decide

/-- C3: a returned block is at least as large as the request.  This fails on
the code.  On a fresh region of 1024 bytes the only free block has 992 usable
bytes; `Allocate(2 ^ 64 - 1)` rounds the request to `alloc_size = 0`, returns
the pointer 4128 and leaves the block it returns with 0 usable bytes. -/
theorem C3_oversized_request_served :
    walk (construct zeroMem 4096 1024).mem 8 (construct zeroMem 4096 1024).freeList = [4096] ∧
    ((construct zeroMem 4096 1024).mem 4096).size = 992 ∧
    992 < 2 ^ 64 - 1 ∧
    alloc_size (2 ^ 64 - 1) = 0 ∧
    (Allocate 8 (construct zeroMem 4096 1024) (2 ^ 64 - 1)).map
      (fun r => (r.1, (r.2.mem (r.1 - sizeofMCB)).size)) = some (4128, 0) := by
  decide

/-- C4: first fit.  In every state whose free list is a finite chain `l` that
ends in null, and for every requested size `n`, `Allocate(n)` returns (with
as many iterations as the list has blocks); it returns null exactly when every
block of the free list has a size below `alloc_size n`; otherwise it returns
the payload address, header address plus 32, of a block `b` of the list that
is large enough while every block before it in the list is too small. -/
theorem C4_first_fit (s : Allocator) (n : Nat) (l : List Nat) (fuel : Nat)
    (hl : IsChain s.mem s.freeList l) (hfuel : l.length ≤ fuel) :
    ∃ r s1, Allocate fuel s n = some (r, s1) ∧
      (r = 0 ↔ ∀ b ∈ l, (s.mem b).size < alloc_size n) ∧
      (r ≠ 0 → ∃ pre b post, l = pre ++ b :: post ∧
          (∀ a ∈ pre, (s.mem a).size < alloc_size n) ∧ alloc_size n ≤ (s.mem b).size ∧
          r = b + sizeofMCB) := by
  rcases findFit_chain s.mem (alloc_size n) l s.freeList fuel hl hfuel with
    ⟨hf, hall⟩ | ⟨pre, b, post, hl, hpre, hb, hb0, hf⟩
  · exact ⟨0, s, by simp [Allocate, hf], by simpa using hall, by simp⟩
  · refine ⟨b + sizeofMCB, (takeBlock s (alloc_size n) b).2, by simp [Allocate, hf, hb0, takeBlock],
      ?_, ?_⟩
    · constructor
      · intro h; simp [sizeofMCB] at h
      · intro hall
        have := hall b (by simp [hl])
        omega
    · intro _
      exact ⟨pre, b, post, hl, hpre, hb, rfl⟩

/-- C4 on the free list left by the first scenario of `main.cpp`, with a
request of 300 bytes. -/
theorem C4_first_fit_witness :
    IsChain sampleState.mem sampleState.freeList [4864, 4608, 4096] ∧
    ∃ r s1, Allocate 3 sampleState 300 = some (r, s1) ∧
      (r = 0 ↔ ∀ b ∈ [4864, 4608, 4096], (sampleState.mem b).size < alloc_size 300) ∧
      (r ≠ 0 → ∃ pre b post, [4864, 4608, 4096] = pre ++ b :: post ∧
          (∀ a ∈ pre, (sampleState.mem a).size < alloc_size 300) ∧ alloc_size 300 ≤ (sampleState.mem b).size ∧
          r = b + sizeofMCB) :=
  ⟨by decide, C4_first_fit sampleState 300 [4864, 4608, 4096] 3 (by decide) (by decide)⟩

/-- C5: nothing above the maximum size can be allocated right after
construction.  This fails on the code.  For the region size 1024 the maximum
is 992, and on a fresh allocator `Allocate(2 ^ 64 - 31)`, a request above
992, returns the pointer 4128 instead of null. -/
theorem C5_request_above_maximum_served :
    (1024 - 32) / 32 * 32 = 992 ∧ 992 < 2 ^ 64 - 31 ∧ 2 ^ 64 - 31 < 2 ^ 64 ∧
    (Allocate 8 (construct zeroMem 4096 1024) (2 ^ 64 - 31)).map Prod.fst = some 4128 := by
  decide

/-- C6: `Allocate` terminates in every state reached by allowed calls.  This
fails on the code.  Region of 256 bytes at 4096: `Allocate(32)`, `Deallocate`
of the result, `Allocate(64)`, `Deallocate` of the result, `Allocate(32)`.
Every call is allowed and returns; afterwards the free list is the block 4096
whose `next` is 4096 itself, with 32 usable bytes, and `Allocate(64)` does not
finish whatever the number of iterations. -/
theorem C6_allocate_never_returns :
    ∃ t, (Session.start 4096 256).run 8
        [.allocate 32, .deallocate 4128, .allocate 64, .deallocate 4192, .allocate 32] = some t ∧
      t.returned = [4192, 4192, 4128] ∧ t.live = [4192] ∧
      t.state.freeList = 4096 ∧ (t.state.mem 4096).next = 4096 ∧
      ∀ fuel, Allocate fuel t.state 64 = none := by
  have key : ((Session.start 4096 256).run 8
      [.allocate 32, .deallocate 4128, .allocate 64, .deallocate 4192, .allocate 32]).map
      (fun t => (t.returned, t.live, t.state.freeList, (t.state.mem 4096).next,
                 (t.state.mem 4096).size)) = some ([4192, 4192, 4128], [4192], 4096, 4096, 32) := by
    decide
  cases h : (Session.start 4096 256).run 8
      [.allocate 32, .deallocate 4128, .allocate 64, .deallocate 4192, .allocate 32] with
  | none => rw [h] at key; simp at key
  | some t =>
    rw [h] at key
    simp only [Option.map_some', Option.some.injEq, Prod.mk.injEq] at key
    obtain ⟨h1, h2, h3, h4, h5⟩ := key
    refine ⟨t, rfl, h1, h2, h3, h4, ?_⟩
    intro fuel
    have hasz : alloc_size 64 = 64 := by decide
    have hloop := findFit_self_loop t.state.mem 64 4096 (by decide) (by omega) h4 fuel
    simp [Allocate, hasz, h3, hloop]

/-- C7: when everything that was allocated has been deallocated, the used
list is empty.  This fails on the code.  Region of 1024 bytes at 4096:
`Allocate(480)`, `Allocate(480)`, `Deallocate` of the first result,
`Allocate(480)`, `Deallocate` of its result, `Deallocate` of the second
result.  Every returned pointer has been deallocated exactly once, no pointer
is live, and `usedList` is 4608, so the assertion of the destructor fails. -/
theorem C7_used_list_not_empty_at_end :
    ((Session.start 4096 1024).run 8
        [.allocate 480, .allocate 480, .deallocate 4128, .allocate 480, .deallocate 4128,
         .deallocate 4640]).map
      (fun t => (t.returned, t.live, t.state.usedList, destructorOk t.state))
      = some ([4128, 4640, 4128], [], 4608, false) := by
  decide

/-- C8: fragmentation after a split.  For every region that lies in the
64-bit address space (non-null base, `base + S` at most `2 ^ 64`) and whose
size `S` is above 32 and at most `2 ^ 64 - 32`, with `m` the value `S - 32`
rounded down to a multiple of 32, and for every three sizes: the scenario
`p = Allocate(m)`, `Deallocate(p)`, three allocations, their three
deallocations in the same order, `d = Allocate(m)` runs to its end, and when
one of the three allocations has split a block, `d` is null.  The bound on `S`
holds for every region a program can pass to the constructor: the `Allocator`
object itself (two pointers, a `size_t` and a pointer, 32 bytes) lies outside
the region and address 0 is null, so `S` is at most `2 ^ 64 - 33`. -/
theorem C8_fragmented_after_split (m0 : Mem) (base S n1 n2 n3 fuel : Nat)
    (hbase : base ≠ 0) (h32 : 32 < S) (hS : S ≤ 2 ^ 64 - 32) (hend : base + S ≤ 2 ^ 64)
    (hfuel : 4 ≤ fuel) :
    ∃ sp d, scenario2 fuel m0 base S ((S - 32) / 32 * 32) n1 n2 n3 = some (sp, d) ∧
      (sp = true → d = 0) := by
  have hf0 : 0 < fuel := by omega
  obtain ⟨s1, hA0, hC2⟩ := maxAlloc_then_free m0 hbase h32 hS hend fuel hf0
  obtain ⟨a, s3, hA1, hC3, hsp1, -⟩ := hC2.allocate_step hbase hS hend n1 fuel hf0
  obtain ⟨b, s4, hA2, hC4, hsp2, hsm2⟩ := hC3.allocate_step hbase hS hend n2 fuel hf0
  obtain ⟨c, s5, hA3, hC5, hsp3, hsm3⟩ := hC4.allocate_step hbase hS hend n3 fuel hf0
  generalize hu3 : (if a = 0 then [] else [a - sizeofMCB]) = ul3 at hC3 hC4 hC5 hsp1 hsp2 hsp3 hsm2 hsm3
  generalize hu4 : (if b = 0 then ul3 else (b - sizeofMCB) :: ul3) = ul4 at hC4 hC5 hsp2 hsp3 hsm2 hsm3
  generalize hu5 : (if c = 0 then ul4 else (c - sizeofMCB) :: ul4) = ul5 at hC5 hsp3 hsm3
  -- what the three allocations pushed
  have ha3 : a ≠ 0 → a - sizeofMCB ∈ ul3 := by
    intro ha; rw [← hu3]; simp [ha]
  obtain ⟨h34, hb4⟩ := pushed_facts ul3 b (by rw [hu4]; exact hC4.nodup)
  obtain ⟨h45, hc5⟩ := pushed_facts ul4 c (by rw [hu5]; exact hC5.nodup)
  rw [hu4] at h34 hb4
  rw [hu5] at h45 hc5
  have hnz : ∀ x ∈ ul5, x ≠ 0 := IsDChain.block_ne_zero _ _ _ hC5.used
  -- the three deallocations
  have hF5 := hC5.toFreed hbase
  generalize hfl5 : (if s5.freeList = 0 then [] else [s5.freeList]) = fl5 at hF5
  have hlen5 : fl5.length ≤ 1 := by rw [← hfl5]; split_ifs <;> simp
  have hda : a = 0 ∨ a - sizeofMCB ∈ ul5 := by
    by_cases ha : a = 0
    · exact Or.inl ha
    · exact Or.inr (h45 _ (h34 _ (ha3 ha)))
  obtain ⟨fl6, ul6, hF6, hlen6, hsub6, hkeep6⟩ := hF5.deallocate_any hda
  have hdb : b = 0 ∨ b - sizeofMCB ∈ ul6 := by
    by_cases hb : b = 0
    · exact Or.inl hb
    · right
      refine hkeep6 _ (h45 _ (hb4 hb).1) ?_
      by_cases ha : a = 0
      · rw [ha]; exact hnz _ (h45 _ (hb4 hb).1)
      · intro e; exact (hb4 hb).2 (e ▸ ha3 ha)
  obtain ⟨fl7, ul7, hF7, hlen7, hsub7, hkeep7⟩ := hF6.deallocate_any hdb
  have hdc : c = 0 ∨ c - sizeofMCB ∈ ul7 := by
    by_cases hc : c = 0
    · exact Or.inl hc
    · right
      refine hkeep7 _ (hkeep6 _ (hc5 hc).1 ?_) ?_
      · by_cases ha : a = 0
        · rw [ha]; exact hnz _ (hc5 hc).1
        · intro e; exact (hc5 hc).2 (e ▸ h34 _ (ha3 ha))
      · by_cases hb : b = 0
        · rw [hb]; exact hnz _ (hc5 hc).1
        · intro e; exact (hc5 hc).2 (e ▸ (hb4 hb).1)
  obtain ⟨fl8, ul8, hF8, hlen8, hsub8, -⟩ := hF7.deallocate_any hdc
  obtain ⟨d, sd, hA4, hnull⟩ := hF8.allocate_returns ((S - 32) / 32 * 32) fuel (by omega)
  refine ⟨splits fuel (Deallocate s1 (base + sizeofMCB)) n1 || splits fuel s3 n2 ||
    splits fuel s4 n3, d, by simp only [scenario2, hA0, hA1, hA2, hA3, hA4], ?_⟩
  intro hsp
  apply hnull
  have hsmall : Small S s5 ul5 := by
    simp only [Bool.or_eq_true] at hsp
    rcases hsp with (h1 | h2) | h3
    · exact hsm3 (hsm2 (hsp1 h1))
    · exact hsm3 (hsp2 h2)
    · exact hsp3 h3
  have hS1 : S ≤ 18446744073709551584 := by norm_num at hS; exact hS
  have hasz : alloc_size ((S - 32) / 32 * 32) = (S - 32) / 32 * 32 :=
    alloc_size_of_multiple _ (by omega)
  intro x hx
  have hx5 : x ∈ fl5 ++ ul5 :=
    hsub6 _ (hsub7 _ (hsub8 _ (List.mem_append_left _ hx)))
  have hsz : (s5.mem x).size + 64 ≤ S := by
    rcases List.mem_append.mp hx5 with hxf | hxu
    · rw [← hfl5] at hxf
      by_cases h0 : s5.freeList = 0
      · simp [h0] at hxf
      · simp only [h0, if_false, List.mem_singleton] at hxf
        rw [hxf]; exact hsmall.2 h0
    · exact hsmall.1 x hxu
  rw [Deallocate_size, Deallocate_size, Deallocate_size, hasz]
  omega

/-- C8 on the scenario of `main.cpp`: 1024 bytes at 4096, `m = 992`, sizes
480, 224 and 224.  One of the three allocations splits and the last
`Allocate(992)` returns null. -/
theorem C8_fragmented_after_split_witness :
    (4096 ≠ 0 ∧ 32 < 1024 ∧ 1024 ≤ 2 ^ 64 - 32 ∧ 4096 + 1024 ≤ 2 ^ 64 ∧ 4 ≤ 8) ∧
    scenario2 8 zeroMem 4096 1024 992 480 224 224 = some (true, 0) ∧
    ∃ sp d, scenario2 8 zeroMem 4096 1024 ((1024 - 32) / 32 * 32) 480 224 224 = some (sp, d) ∧
      (sp = true → d = 0) :=
  ⟨by decide, by decide,
    C8_fragmented_after_split zeroMem 4096 1024 480 224 224 8 (by decide) (by decide) (by decide)
      (by decide) (by decide)⟩

/-- C9: round trip of the maximum size.  For every region with a non-null
base and a size `S` above 32, with `m` the value `S - 32` rounded down to a
multiple of 32: after construction `Allocate(m)` returns a non-null pointer
`p`; after `Deallocate(p)` a second `Allocate(m)` returns the same pointer
`p`, and the block it returns has the same usable size as after the first
call. -/
theorem C9_max_alloc_roundtrip (m0 : Mem) (base S fuel : Nat) (hbase : base ≠ 0)
    (hS : 32 < S) (hS64 : S < 2 ^ 64) (hfuel : 0 < fuel) :
    ∃ p s1 s3,
      Allocate fuel (construct m0 base S) ((S - 32) / 32 * 32) = some (p, s1) ∧ p ≠ 0 ∧
      Allocate fuel (Deallocate s1 p) ((S - 32) / 32 * 32) = some (p, s3) ∧
      (s3.mem (p - sizeofMCB)).size = (s1.mem (p - sizeofMCB)).size := by
  obtain ⟨k, rfl⟩ : ∃ k, fuel = k + 1 := ⟨fuel - 1, by omega⟩
  norm_num at hS64
  have hasz : alloc_size ((S - 32) / 32 * 32) = (S - 32) / 32 * 32 :=
    alloc_size_of_multiple _ (by omega)
  have hsz0 : ((construct m0 base S).mem base).size = S - 32 := by
    rw [construct_size_head, sizeofMCB, sub64_of_le _ _ (by omega) hS64]
  have hfl0 : (construct m0 base S).freeList = base := rfl
  have h1 : Allocate (k + 1) (construct m0 base S) ((S - 32) / 32 * 32)
      = some (takeBlock (construct m0 base S) ((S - 32) / 32 * 32) base) := by
    have := Allocate_hit k (construct m0 base S) ((S - 32) / 32 * 32)
      (by rw [hfl0]; exact hbase) (by rw [hfl0, hsz0, hasz]; omega)
    rwa [hasz, hfl0] at this
  set s0 := construct m0 base S with hs0
  set m := (S - 32) / 32 * 32 with hm
  set s1 := (takeBlock s0 m base).2 with hs1
  have hp : base + sizeofMCB ≠ 0 := by simp [sizeofMCB]
  have hpm : base + sizeofMCB - sizeofMCB = base := by simp
  set s2 := Deallocate s1 (base + sizeofMCB) with hs2
  have hfl2 : s2.freeList = base := by rw [hs2, Deallocate_freeList _ _ hp, hpm]
  have hsz1 : (s1.mem base).size = if splitCond s0 m base then m else S - 32 := by
    rw [hs1, takeBlock_size_self, hsz0]
  have hsz2 : (s2.mem base).size = (s1.mem base).size := Deallocate_size _ _ _
  have hge : m ≤ (s2.mem base).size := by
    rw [hsz2, hsz1]; split_ifs <;> omega
  have h2 : Allocate (k + 1) s2 m = some (takeBlock s2 m base) := by
    have := Allocate_hit k s2 m (by rw [hfl2]; exact hbase) (by rw [hfl2, hasz]; exact hge)
    rwa [hasz, hfl2] at this
  refine ⟨base + sizeofMCB, s1, (takeBlock s2 m base).2, h1, hp, h2, ?_⟩
  rw [hpm, takeBlock_size_self, hsz2]
  have hcond : splitCond s2 m base = true → (s1.mem base).size = m := by
    intro hc
    rw [hsz1]
    split_ifs with h0
    · rfl
    · exfalso
      have e : splitCond s2 m base = splitCond s0 m base := by
        have a1 : s2.addr = s0.addr := by rw [hs2, Deallocate_addr, hs1, takeBlock_addr]
        have a2 : s2.size = s0.size := by
          rw [hs2, Deallocate_regionSize, hs1, takeBlock_regionSize]
        have a3 : (s2.mem base).size = (s0.mem base).size := by
          rw [hsz2, hsz1, if_neg h0, hsz0]
        simp only [splitCond, a1, a2, a3]
      rw [e] at hc
      exact h0 hc
  split_ifs with hc
  · exact (hcond hc).symm
  · rfl

/-- C9 on the region of `main.cpp`: 1024 bytes at 4096, `m = 992`. -/
theorem C9_max_alloc_roundtrip_witness :
    (4096 ≠ 0 ∧ 32 < 1024 ∧ 1024 < 2 ^ 64 ∧ 0 < 1) ∧
    ∃ p s1 s3,
      Allocate 1 (construct zeroMem 4096 1024) ((1024 - 32) / 32 * 32) = some (p, s1) ∧ p ≠ 0 ∧
      Allocate 1 (Deallocate s1 p) ((1024 - 32) / 32 * 32) = some (p, s3) ∧
      (s3.mem (p - sizeofMCB)).size = (s1.mem (p - sizeofMCB)).size :=
  ⟨by decide,
    C9_max_alloc_roundtrip zeroMem 4096 1024 1 (by decide) (by decide) (by decide) (by decide)⟩

/-- C10: `Deallocate(nullptr)` leaves the whole state as it is: the region
bounds, both list heads and every field of every control block. -/
theorem C10_deallocate_null (s : Allocator) : Deallocate s 0 = s := by
  simp [Deallocate]

/-- C11: the usable sizes of the live blocks add up to at most `S - 32`.  This
fails on the code.  Region of 1024 bytes at 4096: `Allocate(480)`,
`Deallocate` of the result, `Allocate(224)`, `Allocate(480)`,
`Allocate(480)`.  Every call is allowed; three pointers are live at the end,
4640 returned twice and 4128, and their usable sizes add up to 1184, above
`1024 - 32 = 992`. -/
theorem C11_live_sizes_exceed_region :
    ((Session.start 4096 1024).run 8
        [.allocate 480, .deallocate 4128, .allocate 224, .allocate 480, .allocate 480]).map
      (fun t => (t.live, usableSum t.state.mem t.live, decide (usableSum t.state.mem t.live ≤ 1024 - 32)))
      = some ([4640, 4640, 4128], 1184, false) := by
  decide

/-- C12 as stated fails when the region size is not a multiple of 32: the
constructor gives the first block `S - 32` usable bytes without rounding.
Region of 100 bytes at 4096: the block at the head of the free list has 68
usable bytes. -/
theorem C12_fails_on_unaligned_region :
    32 < 100 ∧ (Session.start 4096 100).state.freeList = 4096 ∧
    ((Session.start 4096 100).state.mem 4096).size = 68 ∧ ¬ (32 ∣ 68) := by
  decide

/-- C12, amended: for every region whose size `S` is a multiple of 32 and
every valid sequence of calls after construction, every block that is reached
from `freeList` or from `usedList`, and every block whose payload pointer is
live, has a usable size that is a multiple of 32. -/
theorem C12_sizes_multiples_of_32 (m0 : Mem) (base S fuel : Nat) (hS : 32 ∣ S)
    (cs : List Call) (t : Session)
    (hrun : (Session.startOn m0 base S).run fuel cs = some t) :
    (∀ k, ∀ a ∈ walk t.state.mem k t.state.freeList, 32 ∣ (t.state.mem a).size) ∧
    (∀ k, ∀ a ∈ walk t.state.mem k t.state.usedList, 32 ∣ (t.state.mem a).size) ∧
    (∀ p ∈ t.live, 32 ∣ (t.state.mem (p - sizeofMCB)).size) := by
  obtain ⟨hany, hlive⟩ := Session.run_runAny fuel cs _ t
    (by intro p hp; simp [Session.startOn] at hp) hrun
  obtain ⟨Q, hQ⟩ := Rounded.after_calls fuel cs _ _ t (Rounded.at_start m0 base S hS) hany
  refine ⟨?_, ?_, ?_⟩
  · intro k a ha
    exact hQ.sizes a (walk_closed hQ.closed.links k _ hQ.closed.freeHead a ha)
  · intro k a ha
    exact hQ.sizes a (walk_closed hQ.closed.links k _ hQ.closed.usedHead a ha)
  · intro p hp
    exact hQ.sizes _ ((hQ.returned p (hlive p hp).1).resolve_left (hlive p hp).2)

/-- C12 on the region of `main.cpp` after `Allocate(480)`, `Allocate(224)`
and `Deallocate` of the first result. -/
theorem C12_sizes_multiples_of_32_witness :
    32 ∣ 1024 ∧
    ∃ t, (Session.startOn zeroMem 4096 1024).run 8
        [.allocate 480, .allocate 224, .deallocate 4128] = some t ∧
      (∀ k, ∀ a ∈ walk t.state.mem k t.state.freeList, 32 ∣ (t.state.mem a).size) ∧
      (∀ k, ∀ a ∈ walk t.state.mem k t.state.usedList, 32 ∣ (t.state.mem a).size) ∧
      (∀ p ∈ t.live, 32 ∣ (t.state.mem (p - sizeofMCB)).size) :=
  ⟨by decide,
    ((Session.startOn zeroMem 4096 1024).run 8
        [.allocate 480, .allocate 224, .deallocate 4128]).get (by decide),
    by simp,
    C12_sizes_multiples_of_32 zeroMem 4096 1024 8 (by decide)
      [.allocate 480, .allocate 224, .deallocate 4128] _ (by simp)⟩

/-- C13: the blocks of the two lists account for the region exactly.  This
fails on the code.  Region of 1024 bytes at 4096: `Allocate(224)`,
`Deallocate` of the result, `Allocate(480)`, `Deallocate` of the result.
Afterwards the free list is 4352, 4096, the used list is empty, and header
plus usable size add up to 768 over the two lists: the block at 4864 (32 +
224 bytes) is on neither list. -/
theorem C13_block_lost_from_both_lists :
    ((Session.start 4096 1024).run 8
        [.allocate 224, .deallocate 4128, .allocate 480, .deallocate 4384]).map
      (fun t => (walk t.state.mem 8 t.state.freeList, walk t.state.mem 8 t.state.usedList,
                 t.live,
                 blockSum t.state.mem
                   (walk t.state.mem 8 t.state.freeList ++ walk t.state.mem 8 t.state.usedList)))
      = some ([4352, 4096], [], [], 768) := by
  decide

/-- C14: the split puts the new block in the place of the old one, with the
same neighbours.  This fails on the code for the former successor.  Region of
1024 bytes at 4096, after `Allocate(480)` and `Deallocate` of the result: the
free list is the well-formed doubly linked list 4096, 4608, and for a request
of 224 bytes the first fit is `B = 4096`, whose 480 usable bytes are at least
`224 + 2 * 32`.  `Allocate(224)` returns 4128, `B` keeps 224 bytes, the new
block `R = 4352` gets 224 bytes, `freeList` is `R`, the `prev` of `R` is null
and its `next` is the former successor 4608; but the `prev` of 4608 is still
4096, not `R`. -/
theorem C14_successor_prev_not_updated :
    ((Session.start 4096 1024).run 8 [.allocate 480, .deallocate 4128]).map
      (fun t => (decide (IsDChain t.state.mem 0 t.state.freeList [4096, 4608]),
                 findFit t.state.mem (alloc_size 224) 8 t.state.freeList,
                 (t.state.mem 4096).size,
                 decide (alloc_size 224 + 2 * 32 ≤ (t.state.mem 4096).size)))
      = some (true, some 4096, 480, true) ∧
    ((Session.start 4096 1024).run 8 [.allocate 480, .deallocate 4128]).bind
      (fun t => (Allocate 8 t.state 224).map
        (fun r => (r.1, (r.2.mem 4096).size, (r.2.mem 4352).size, r.2.freeList,
                   walk r.2.mem 8 r.2.freeList)))
      = some (4128, 224, 224, 4352, [4352, 4608]) ∧
    ((Session.start 4096 1024).run 8 [.allocate 480, .deallocate 4128]).bind
      (fun t => (Allocate 8 t.state 224).map
        (fun r => ((r.2.mem 4352).prev, (r.2.mem 4352).next, (r.2.mem 4608).prev,
                   decide ((r.2.mem 4608).prev = 4352))))
      = some (0, 4608, 4096, false) := by
  refine ⟨by decide, by decide, by decide⟩

/-- C15: both lists stay well-formed doubly linked lists.  This fails on the
code.  Region of 1024 bytes at 4096: `Allocate(480)`, `Deallocate` of the
result, `Allocate(224)`.  Afterwards the free list is 4352, 4608, and the
`prev` of 4608 is 4096, a block of the used list, instead of 4352. -/
theorem C15_free_list_prev_link_stale :
    ((Session.start 4096 1024).run 8
        [.allocate 480, .deallocate 4128, .allocate 224]).map
      (fun t => (walk t.state.mem 8 t.state.freeList, walk t.state.mem 8 t.state.usedList,
                 (t.state.mem 4352).next, (t.state.mem 4608).prev))
      = some ([4352, 4608], [4096], 4608, 4096) := by
  decide

/-- C16: `Deallocate` moves one block and leaves the rest of both lists as it
is.  This fails on the code.  Region of 256 bytes at 4096: after
`Allocate(32)`, `Deallocate` of the result and `Allocate(64)`, the free list is
4096, 4256, the used list is 4160 and the pointer 4192 is live.
`Deallocate(4192)` leaves the free list 4160, 4096: the block 4256, which was
on the free list, is on no list any more. -/
theorem C16_deallocate_drops_free_block :
    ((Session.start 4096 256).run 8 [.allocate 32, .deallocate 4128, .allocate 64]).map
      (fun t => (walk t.state.mem 8 t.state.freeList, walk t.state.mem 8 t.state.usedList,
                 t.live,
                 walk (Deallocate t.state 4192).mem 8 (Deallocate t.state 4192).freeList,
                 walk (Deallocate t.state 4192).mem 8 (Deallocate t.state 4192).usedList))
      = some ([4096, 4256], [4160], [4192], [4160, 4096], []) := by
  decide

/-- C17: no coalescing, so the number of blocks never decreases.  This fails
on the code: `Deallocate` removes a block from the lists.  Region of 1024
bytes at 4096: after `Allocate(224)`, `Deallocate` of the result and
`Allocate(480)`, the pointer 4384 is live, the free list is 4096, 4864 and the
used list is 4352: three blocks.  After `Deallocate(4384)` the free list is
4352, 4096 and the used list is empty: two blocks.  The block at 4864 is on
no list any more; its header still holds 224 usable bytes, it has not been
merged into a neighbour. -/
theorem C17_deallocate_removes_block :
    ((Session.start 4096 1024).run 8 [.allocate 224, .deallocate 4128, .allocate 480]).map
      (fun t => (t.live,
                 walk t.state.mem 8 t.state.freeList, walk t.state.mem 8 t.state.usedList,
                 (walk t.state.mem 8 t.state.freeList
                   ++ walk t.state.mem 8 t.state.usedList).length))
      = some ([4384], [4096, 4864], [4352], 3) ∧
    ((Session.start 4096 1024).run 8 [.allocate 224, .deallocate 4128, .allocate 480]).map
      (fun t => (walk (Deallocate t.state 4384).mem 8 (Deallocate t.state 4384).freeList,
                 walk (Deallocate t.state 4384).mem 8 (Deallocate t.state 4384).usedList,
                 (walk (Deallocate t.state 4384).mem 8 (Deallocate t.state 4384).freeList
                   ++ walk (Deallocate t.state 4384).mem 8
                        (Deallocate t.state 4384).usedList).length,
                 ((Deallocate t.state 4384).mem 4864).size))
      = some ([4352, 4096], [], 2, 224) := by
  refine ⟨by decide, by decide⟩

/-- C18: the rounding gives the least multiple of 32 that is not below the
request.  This fails on the code for the requests above `2 ^ 64 - 32`: for
`n = 2 ^ 64 - 1` the sum `n + 31` wraps and `alloc_size` is 0, which is below
`n`. -/
theorem C18_rounding_wraps_to_zero :
    2 ^ 64 - 1 < 2 ^ 64 ∧ alloc_size (2 ^ 64 - 1) = 0 ∧
    ¬ (2 ^ 64 - 1 ≤ alloc_size (2 ^ 64 - 1)) := by
  decide

/-- C20: a failed allocation is atomic.  For every state and every requested
size, when `Allocate` returns null the state after the call is the state
before it: both list heads, the region bounds and every field of every
control block. -/
theorem C20_failed_allocate_atomic (fuel : Nat) (s : Allocator) (n : Nat)
    (h : (Allocate fuel s n).map Prod.fst = some 0) :
    (Allocate fuel s n).map Prod.snd = some s := by
  unfold Allocate at h ⊢
  cases hf : findFit s.mem (alloc_size n) fuel s.freeList with
  | none => simp [hf] at h
  | some c =>
    by_cases hc : c = 0
    · simp [hc]
    · simp [hf, hc, takeBlock, sizeofMCB] at h

/-- C20 on the free list left by the first scenario of `main.cpp`: a request
of 992 bytes fails and leaves the state as it was. -/
theorem C20_failed_allocate_atomic_witness :
    (Allocate 3 sampleState 992).map Prod.fst = some 0 ∧
    (Allocate 3 sampleState 992).map Prod.snd = some sampleState :=
  ⟨by decide, C20_failed_allocate_atomic 3 sampleState 992 (by decide)⟩

end Allocator
